import Mathlib

/-!
A shallow embedding of the Avro binary serialization core
(`lang/py/src/avro/io.py` and its split variant `lang/py/src/avro/io/_io.py`;
the two hold the same definitions) with proofs about its codec, validator,
schema matcher, reader and writer engines.

Modelling conventions:
* Python byte strings are `List Nat` with every element below 256.
* Python `int`/`long` (unbounded) is `Int`; bitwise operators on negative
  integers use explicit two's-complement helpers mirroring Python semantics.
* Python `float` (IEEE-754 binary64) is carried as its 64-bit bit pattern,
  a `Nat` below 2^64; packing/unpacking moves bit patterns, so no real
  arithmetic is modelled.
* Python object identity (`is`) is modelled as structural equality of the
  embedded values: identical objects are structurally equal, and the schemas
  compared by the source's identity short-circuits are the very objects the
  caller passed to both sides.
* The source's `while` loops that read an unbounded number of blocks from the
  wire are embedded with an explicit fuel parameter; `Err.fuelExhausted` is an
  artifact of that embedding and is unreachable once the fuel exceeds the
  number of loop iterations (each iteration consumes input).
-/

set_option maxHeartbeats 1600000
set_option maxRecDepth 16000

namespace Avro

abbrev Bytes := List Nat

/-- JSON-shaped values: the representation of field default values
(`Field.default` in the schema model), as the `json` module would produce. -/
inductive Json where
  | null
  | bool (b : Bool)
  | int (n : Int)
  | float (bits : Nat)
  | str (s : String)
  | arr (xs : List Json)
  | obj (kvs : List (String × Json))

/-- The dynamically-shaped Python datum tree of `avro.io`: records and maps are
dicts (association lists keyed by strings, in insertion order), arrays are
lists, `bytes`/`fixed` carry Python 2 byte strings (`str`), `string` carries
`unicode` text, and floats carry their IEEE-754 binary64 bit pattern. -/
inductive Datum where
  | none
  | bool (b : Bool)
  | int (n : Int)
  | float (bits : Nat)
  | bytes (bs : List Nat)
  | string (s : String)
  | list (xs : List Datum)
  | dict (kvs : List (String × Datum))

mutual
/-- The schema model consumed by `avro.io` (built elsewhere by `avro.schema`,
which is outside the staged sources): a tagged variant exposing `.type`,
`.size`, `.symbols`, `.items`, `.values`, `.schemas`, `.fullname`, `.fields`. -/
inductive Schema where
  | snull
  | sboolean
  | sint
  | slong
  | sfloat
  | sdouble
  | sbytes
  | sstring
  | sfixed (fullname : String) (size : Nat)
  | senum (fullname : String) (symbols : List String)
  | sarray (items : Schema)
  | smap (values : Schema)
  | sunion (schemas : List Schema)
  | serrorUnion (schemas : List Schema)
  | srecord (fullname : String) (fields : List Field)
  | serror (fullname : String) (fields : List Field)
  | srequest (fields : List Field)

/-- A record field: `name`, `type`, `has_default`, `default`. -/
inductive Field where
  | mk (name : String) (type : Schema) (has_default : Bool) (default : Json)
end

def Field.name : Field → String
  | .mk n _ _ _ => n

def Field.type : Field → Schema
  | .mk _ t _ _ => t

def Field.has_default : Field → Bool
  | .mk _ _ h _ => h

def Field.default : Field → Json
  | .mk _ _ _ d => d

/-- The `.type` tag string of a schema, as `avro.schema` exposes it. -/
def Schema.typeName : Schema → String
  | .snull => "null"
  | .sboolean => "boolean"
  | .sint => "int"
  | .slong => "long"
  | .sfloat => "float"
  | .sdouble => "double"
  | .sbytes => "bytes"
  | .sstring => "string"
  | .sfixed _ _ => "fixed"
  | .senum _ _ => "enum"
  | .sarray _ => "array"
  | .smap _ => "map"
  | .sunion _ => "union"
  | .serrorUnion _ => "error_union"
  | .srecord _ _ => "record"
  | .serror _ _ => "error"
  | .srequest _ => "request"

/- Per-type attribute projections.  In Python an attribute access on a schema
of the wrong type raises `AttributeError`; the embedding returns an inert
default instead.  Every proved statement only exercises type-correct
accesses, where the two agree. -/

def Schema.size : Schema → Nat
  | .sfixed _ n => n
  | _ => 0

def Schema.symbols : Schema → List String
  | .senum _ syms => syms
  | _ => []

def Schema.items : Schema → Schema
  | .sarray it => it
  | _ => .snull

def Schema.values : Schema → Schema
  | .smap v => v
  | _ => .snull

def Schema.schemas : Schema → List Schema
  | .sunion ss => ss
  | .serrorUnion ss => ss
  | _ => []

def Schema.fullname : Schema → String
  | .sfixed n _ => n
  | .senum n _ => n
  | .srecord n _ => n
  | .serror n _ => n
  | _ => ""

def Schema.fields : Schema → List Field
  | .srecord _ fs => fs
  | .serror _ fs => fs
  | .srequest fs => fs
  | _ => []

mutual
/-- Structural equality of schemas: the embedding of Python object identity
(`is`) and of dictionary keying by schema objects. -/
def Schema.beq : Schema → Schema → Bool
  | .snull, .snull => true
  | .sboolean, .sboolean => true
  | .sint, .sint => true
  | .slong, .slong => true
  | .sfloat, .sfloat => true
  | .sdouble, .sdouble => true
  | .sbytes, .sbytes => true
  | .sstring, .sstring => true
  | .sfixed n s, .sfixed n' s' => n == n' && s == s'
  | .senum n syms, .senum n' syms' => n == n' && syms == syms'
  | .sarray a, .sarray b => Schema.beq a b
  | .smap a, .smap b => Schema.beq a b
  | .sunion as, .sunion bs => Schema.beqList as bs
  | .serrorUnion as, .serrorUnion bs => Schema.beqList as bs
  | .srecord n fs, .srecord m gs => n == m && Schema.beqFields fs gs
  | .serror n fs, .serror m gs => n == m && Schema.beqFields fs gs
  | .srequest fs, .srequest gs => Schema.beqFields fs gs
  | _, _ => false

def Schema.beqList : List Schema → List Schema → Bool
  | [], [] => true
  | a :: as, b :: bs => Schema.beq a b && Schema.beqList as bs
  | _, _ => false

def Schema.beqFields : List Field → List Field → Bool
  | [], [] => true
  | .mk n t h d :: as, .mk m u h' d' :: bs =>
      n == m && Schema.beq t u && h == h' && Json.beqJ d d' && Schema.beqFields as bs
  | _, _ => false

def Json.beqJ : Json → Json → Bool
  | .null, .null => true
  | .bool a, .bool b => a == b
  | .int a, .int b => a == b
  | .float a, .float b => a == b
  | .str a, .str b => a == b
  | .arr as, .arr bs => Json.beqJList as bs
  | .obj as, .obj bs => Json.beqJObj as bs
  | _, _ => false

def Json.beqJList : List Json → List Json → Bool
  | [], [] => true
  | a :: as, b :: bs => Json.beqJ a b && Json.beqJList as bs
  | _, _ => false

def Json.beqJObj : List (String × Json) → List (String × Json) → Bool
  | [], [] => true
  | (k, a) :: as, (k', b) :: bs => k == k' && Json.beqJ a b && Json.beqJObj as bs
  | _, _ => false
end

/-- The error taxonomy of the source: Python exception values as data.
`fuelExhausted` is an artifact of the fuel-based embedding of the source's
wire-driven loops, unreachable for sufficient fuel; `truncated`, `typeError`,
`valueError`, `indexError` and `encoding` stand for the built-in Python
exceptions the corresponding operations raise. -/
inductive Err where
  | truncated
  | encoding
  | typeError
  | valueError
  | indexError
  | overflow
  | badSeek
  | avroType (expected : Schema) (datum : Datum)
  | schemaResolution (msg : String) (writers : Option Schema) (readers : Option Schema)
  | avroException (msg : String)
  | fuelExhausted

/- ## Python integer primitives -/

/-- Bitwise XOR on unbounded two's-complement integers: Python's `^`. -/
def pyXor : Int → Int → Int
  | .ofNat a, .ofNat b => .ofNat (a ^^^ b)
  | .ofNat a, .negSucc b => .negSucc (a ^^^ b)
  | .negSucc a, .ofNat b => .negSucc (a ^^^ b)
  | .negSucc a, .negSucc b => .ofNat (a ^^^ b)

/-- Python's `>>` on an `int`: the arithmetic right shift on the unbounded
two's complement, i.e. floor division by `2 ^ k`, written constructor-wise
(`-(a+1) >> k = -((a >> k) + 1)`). -/
def pyShr (x : Int) (k : Nat) : Int :=
  match x with
  | .ofNat a => .ofNat (a >>> k)
  | .negSucc a => .negSucc (a >>> k)

/-- Python's `<<` on an `int`. -/
def pyShl (x : Int) (k : Nat) : Int := x * 2 ^ k

/-- The zig-zag step of `BinaryEncoder.write_long`:
`datum = (datum << 1) ^ (datum >> 63)`. -/
def zigZag (x : Int) : Int := pyXor (pyShl x 1) (pyShr x 63)

/-- The un-zig-zag step of `BinaryDecoder.read_long`:
`datum = (n >> 1) ^ -(n & 1)` on the accumulated non-negative `n`. -/
def unZigZag (n : Nat) : Int := pyXor (Int.ofNat (n >>> 1)) (-(Int.ofNat (n &&& 1)))

/-- The emission loop of `BinaryEncoder.write_long` on the zig-zagged value,
which is non-negative: while `(datum & ~0x7F) != 0` emit
`(datum & 0x7f) | 0x80` and shift right by 7; finally emit `datum`. -/
def varintBytes (n : Nat) : Bytes :=
  if n < 0x80 then [n]
  else ((n &&& 0x7F) ||| 0x80) :: varintBytes (n >>> 7)
termination_by n
decreasing_by
  simp only [Nat.shiftRight_eq_div_pow]
  exact Nat.div_lt_self (by omega) (by norm_num)

/-- `BinaryEncoder.write_long`. -/
def write_long (datum : Int) : Bytes := varintBytes (zigZag datum).toNat

/-- `BinaryEncoder.write_int` delegates to `write_long`. -/
def write_int (datum : Int) : Bytes := write_long datum

/-- The accumulation loop of `BinaryDecoder.read_long`: `b` is the byte last
read, `n` the accumulator, `shift` the next shift amount; while `b` has its
high bit set, read another byte `c` and or `(c & 0x7F) << shift` into `n`. -/
def readLongGo : Bytes → Nat → Nat → Nat → Except Err (Nat × Bytes)
  | input, b, n, shift =>
    if b &&& 0x80 ≠ 0 then
      match input with
      | [] => .error .truncated
      | c :: rest => readLongGo rest c (n ||| ((c &&& 0x7F) <<< shift)) (shift + 7)
    else .ok (n, input)

/-- `BinaryDecoder.read_long`: the zig-zag varint decoder.  Reading a byte
from an exhausted source applies `ord` to an empty string, a `TypeError`,
modelled as `Err.truncated`. -/
def read_long (input : Bytes) : Except Err (Int × Bytes) :=
  match input with
  | [] => .error .truncated
  | b :: rest =>
    match readLongGo rest b (b &&& 0x7F) 7 with
    | .error e => .error e
    | .ok (n, rest') => .ok (unZigZag n, rest')

/-- `BinaryDecoder.read_int` delegates to `read_long`. -/
def read_int (input : Bytes) : Except Err (Int × Bytes) := read_long input

/- ## Validator -/

def INT_MIN_VALUE : Int := -(2 ^ 31)

def INT_MAX_VALUE : Int := 2 ^ 31 - 1

def LONG_MIN_VALUE : Int := -(2 ^ 63)

def LONG_MAX_VALUE : Int := 2 ^ 63 - 1

/-- Python `dict.get(name)`: the first binding of the key, `None` when the key
is absent. -/
def dictGet (kvs : List (String × Datum)) (k : String) : Datum :=
  match kvs with
  | [] => .none
  | (k', v) :: rest => if k' == k then v else dictGet rest k

mutual
/-- `validate(expected_schema, datum)`, the table `__type_to_validator__`.
Python 2 notes reflected here: `bool` is a subclass of `int`, so boolean
datums pass the `int`/`long`/`float`/`double` cases; a byte string (`str`)
is a `basestring`, so it passes the `string` case; `int`/`long` datums pass
the `float`/`double` cases. -/
def validate : Schema → Datum → Bool
  | .snull, d => match d with | .none => true | _ => false
  | .sboolean, d => match d with | .bool _ => true | _ => false
  | .sstring, d => match d with | .string _ => true | .bytes _ => true | _ => false
  | .sbytes, d => match d with | .bytes _ => true | _ => false
  | .sint, d =>
      match d with
      | .int n => decide (INT_MIN_VALUE ≤ n ∧ n ≤ INT_MAX_VALUE)
      | .bool _ => true
      | _ => false
  | .slong, d =>
      match d with
      | .int n => decide (LONG_MIN_VALUE ≤ n ∧ n ≤ LONG_MAX_VALUE)
      | .bool _ => true
      | _ => false
  | .sfloat, d =>
      match d with | .int _ => true | .bool _ => true | .float _ => true | _ => false
  | .sdouble, d =>
      match d with | .int _ => true | .bool _ => true | .float _ => true | _ => false
  | .sfixed _ size, d => match d with | .bytes bs => bs.length == size | _ => false
  | .senum _ syms, d => match d with | .string s => syms.contains s | _ => false
  | .sarray items, d => match d with | .list xs => validateItems items xs | _ => false
  | .smap values, d => match d with | .dict kvs => validateValues values kvs | _ => false
  | .sunion ss, d => validateAny ss d
  | .serrorUnion ss, d => validateAny ss d
  | .srecord _ fields, d =>
      match d with | .dict kvs => validateFields fields kvs | _ => false
  | .serror _ fields, d =>
      match d with | .dict kvs => validateFields fields kvs | _ => false
  | .srequest fields, d =>
      match d with | .dict kvs => validateFields fields kvs | _ => false
termination_by s _ => (sizeOf s, 0)

/-- `all([validate(expected_schema.items, d) for d in datum])`. -/
def validateItems : Schema → List Datum → Bool
  | _, [] => true
  | s, d :: ds => validate s d && validateItems s ds
termination_by s ds => (sizeOf s, ds.length + 1)

/-- `all([validate(expected_schema.values, v) for v in datum.itervalues()])`
(the modelled dict keys are strings, so the key check holds by typing). -/
def validateValues : Schema → List (String × Datum) → Bool
  | _, [] => true
  | s, (_, v) :: kvs => validate s v && validateValues s kvs
termination_by s kvs => (sizeOf s, kvs.length + 1)

/-- `any([validate(s, datum) for s in expected_schema.schemas])`. -/
def validateAny : List Schema → Datum → Bool
  | [], _ => false
  | s :: ss, d => validate s d || validateAny ss d
termination_by ss _ => (sizeOf ss, 0)

/-- `all([validate(f.type, datum.get(f.name)) for f in expected_schema.fields])`. -/
def validateFields : List Field → List (String × Datum) → Bool
  | [], _ => true
  | .mk n t _ _ :: fs, kvs => validate t (dictGet kvs n) && validateFields fs kvs
termination_by fs _ => (sizeOf fs, 0)
end

/- ## Schema matcher -/

/-- The same-type rules of `__same_type_to_match_schema__`, dispatched on the
shared type tag (the caller only consults this when the two tags agree; the
final catch-all covers the primitive, union and error_union entries, which
are constantly true). -/
def sameTypeMatch (writers_schema readers_schema : Schema) : Bool :=
  match writers_schema, readers_schema with
  | .srecord wn _, .srecord rn _ => wn == rn
  | .serror wn _, .serror rn _ => wn == rn
  | .srequest _, .srequest _ => true
  | .sfixed wn ws, .sfixed rn rs => wn == rn && ws == rs
  | .senum wn _, .senum rn _ => wn == rn
  | .smap wv, .smap rv => wv.typeName == rv.typeName
  | .sarray wi, .sarray ri => wi.typeName == ri.typeName
  | _, _ => true

/-- `__valid_schema_promotion__`: the permitted numeric promotions as pairs
of type tags. -/
def validSchemaPromotions : List (String × String) :=
  [("int", "long"), ("int", "float"), ("int", "double"),
   ("long", "float"), ("long", "double"), ("float", "double")]

/-- `__match_schema__(writers_schema, readers_schema)`: the uncached matching
predicate. -/
def matchSchemaUncached (writers_schema readers_schema : Schema) : Bool :=
  let w_type := writers_schema.typeName
  let r_type := readers_schema.typeName
  if w_type == r_type then sameTypeMatch writers_schema readers_schema
  else if (w_type == "union" || r_type == "union")
      || (w_type == "error_union" || r_type == "error_union") then true
  else validSchemaPromotions.contains (w_type, r_type)

def MATCH_SCHEMA_CACHE_MAX_LENGTH : Nat := 20

/-- The process-wide `__match_schema_cache__`, keyed by the pair of schema
identities (identity modelled as structural equality). -/
abbrev MatchCache := List ((Schema × Schema) × Bool)

def cacheLookup : MatchCache → Schema → Schema → Option Bool
  | [], _, _ => .none
  | ((w, r), v) :: rest, W, R =>
      if Schema.beq w W && Schema.beq r R then .some v else cacheLookup rest W R

/-- `match_schema(writers_schema, readers_schema)` with its cache state made
explicit: identity short-circuit, cache consultation, wholesale clear above
`MATCH_SCHEMA_CACHE_MAX_LENGTH`, then computation and insertion. -/
def match_schema_with_cache (cache : MatchCache) (W R : Schema) : Bool × MatchCache :=
  if Schema.beq W R then (true, cache)
  else
    match cacheLookup cache W R with
    | .some v => (v, cache)
    | .none =>
      let cache' := if cache.length > MATCH_SCHEMA_CACHE_MAX_LENGTH then [] else cache
      let v := matchSchemaUncached W R
      (v, ((W, R), v) :: cache')

/-- The value `match_schema` computes, with the cache abstracted away: the
identity short-circuit or the uncached predicate.  The reader engine is
embedded against this pure function; the cache-transparency theorem shows the
cached version always returns the same boolean on reachable cache states. -/
def match_schema (W R : Schema) : Bool :=
  Schema.beq W R || matchSchemaUncached W R

/-- A reachable state of `__match_schema_cache__`: every entry holds the
value `__match_schema__` computes for its key pair.  Every cache the source
can build satisfies this (entries are only ever inserted with the computed
value), and the empty cache — the state after a wholesale clear — does
trivially. -/
def validCache (c : MatchCache) : Bool :=
  c.all (fun e => e.2 == matchSchemaUncached e.1.1 e.1.2)

/- ## Text codec and byte-source primitives -/

/-- The UTF-8 encoding of one unicode scalar value, as Python's `utf-8`
codec produces it (arithmetic form of the 1- to 4-byte patterns). -/
def utf8EncodeChar (c : Nat) : Bytes :=
  if c < 0x80 then [c]
  else if c < 0x800 then [0xC0 + c / 0x40, 0x80 + c % 0x40]
  else if c < 0x10000 then
    [0xE0 + c / 0x1000, 0x80 + c / 0x40 % 0x40, 0x80 + c % 0x40]
  else
    [0xF0 + c / 0x40000, 0x80 + c / 0x1000 % 0x40, 0x80 + c / 0x40 % 0x40,
     0x80 + c % 0x40]

/-- `text.encode("utf-8")` on the modelled unicode text. -/
def utf8Encode : List Char → Bytes
  | [] => []
  | c :: cs => utf8EncodeChar c.toNat ++ utf8Encode cs

mutual
/-- `unicode(bytes, "utf-8")`, Python's strict UTF-8 decoder: rejects bad
leading bytes, truncated sequences, bad continuation bytes, overlong forms
and code points above 0x10FFFF.  (CPython 2's decoder accepted encoded
surrogates; the modelled text type holds unicode scalar values only, so those
are rejected here — no proved statement exercises them.) -/
def utf8Decode : Bytes → Option (List Char)
  | [] => .some []
  | b0 :: rest =>
    if b0 < 0x80 then (utf8Decode rest).map (fun cs => Char.ofNat b0 :: cs)
    else if b0 < 0xC2 then .none
    else if b0 < 0xE0 then utf8DecodeCont 1 (b0 - 0xC0) 0x80 rest
    else if b0 < 0xF0 then utf8DecodeCont 2 (b0 - 0xE0) 0x800 rest
    else if b0 < 0xF5 then utf8DecodeCont 3 (b0 - 0xF0) 0x10000 rest
    else .none

/-- The continuation-byte consumer: `need` more continuation bytes are
expected, `acc` holds the scalar value so far, and `min` the smallest scalar
the sequence is allowed to produce (the overlong rejection); on the last
byte the surrogate range and the 0x10FFFF ceiling are enforced. -/
def utf8DecodeCont : Nat → Nat → Nat → Bytes → Option (List Char)
  | _, _, _, [] => .none
  | need, acc, min, b :: rest =>
    if 0x80 ≤ b ∧ b < 0xC0 then
      match need with
      | 1 =>
        if min ≤ acc * 0x40 + (b - 0x80) ∧
            ¬(0xD800 ≤ acc * 0x40 + (b - 0x80) ∧ acc * 0x40 + (b - 0x80) < 0xE000) ∧
            acc * 0x40 + (b - 0x80) < 0x110000 then
          (utf8Decode rest).map (fun cs => Char.ofNat (acc * 0x40 + (b - 0x80)) :: cs)
        else .none
      | need2 + 2 => utf8DecodeCont (need2 + 1) (acc * 0x40 + (b - 0x80)) min rest
      | 0 => .none
    else .none
end

/-- A file-like object's `read(n)` on the remaining input: a negative count
reads to the end, a count beyond the end returns what is available (short
reads do not raise). -/
def pyRead (n : Int) (input : Bytes) : Bytes × Bytes :=
  if n < 0 then (input, [])
  else (input.take n.toNat, input.drop n.toNat)

/-- The little-endian byte split the float/double writers perform:
`[(bits >> s) & 0xFF for s in [0, 8, ...]]`. -/
def bytesLE (width : Nat) (bits : Nat) : Bytes :=
  (List.range width).map (fun i => (bits >>> (8 * i)) &&& 0xFF)

/-- The little-endian byte assembly the float/double readers perform:
or-ing each byte shifted by `[0, 8, ...]` (written recursively). -/
def assembleLE : Bytes → Nat
  | [] => 0
  | b :: rest => b ||| (assembleLE rest <<< 8)

/- ## IEEE-754 bit-pattern conversions

`struct.pack`/`struct.unpack` move bit patterns; converting a Python float
(binary64) down to binary32 rounds to nearest, ties to even, and raises
`OverflowError` when the rounded magnitude exceeds the largest finite
binary32 value.  These functions are executable models of those conversions
on bit patterns; no theorem relies on their internal arithmetic, only on
evaluating them. -/

/-- Shift `m` right by `k` bits, rounding to nearest with ties to even. -/
def roundShiftRight (m : Nat) (k : Nat) : Nat :=
  if k = 0 then m
  else
    let q := m >>> k
    let r := m &&& (2 ^ k - 1)
    let half := 2 ^ (k - 1)
    if r > half || (r == half && q % 2 == 1) then q + 1 else q

/-- Convert a binary64 bit pattern to a binary32 bit pattern, as
`struct.pack("!f", datum)` does: round to nearest (ties to even), overflow
to `OverflowError`, NaN payload truncated with the quiet bit forced. -/
def float64to32 (bits : Nat) : Except Err Nat :=
  let sign := (bits >>> 63) &&& 1
  let e := (bits >>> 52) &&& 0x7FF
  let m := bits &&& (2 ^ 52 - 1)
  if e == 0x7FF then
    if m == 0 then .ok ((sign <<< 31) ||| (0xFF <<< 23))
    else .ok ((sign <<< 31) ||| (0xFF <<< 23) ||| ((m >>> 29) ||| 0x400000))
  else
    let M := if e == 0 then m else m + 2 ^ 52
    if M == 0 then .ok (sign <<< 31)
    else
      let Ebias : Int := if e == 0 then 1 else (e : Int)
      let p : Nat := Nat.log2 M
      let etop : Int := (p : Int) + Ebias - 1075
      if etop ≥ 128 then .error .overflow
      else if etop ≥ -126 then
        let shift : Int := (p : Int) - 23
        let M32 := if shift ≥ 0 then roundShiftRight M shift.toNat
          else M <<< (-shift).toNat
        let M32e : Nat × Int :=
          if M32 == 2 ^ 24 then (2 ^ 23, etop + 1) else (M32, etop)
        if M32e.2 ≥ 128 then .error .overflow
        else .ok ((sign <<< 31) ||| ((M32e.2 + 127).toNat <<< 23) ||| (M32e.1 - 2 ^ 23))
      else
        let shift : Int := 926 - Ebias
        let M32 := if shift ≥ 0 then roundShiftRight M shift.toNat
          else M <<< (-shift).toNat
        if M32 ≥ 2 ^ 23 then .ok ((sign <<< 31) ||| (1 <<< 23) ||| (M32 - 2 ^ 23))
        else .ok ((sign <<< 31) ||| M32)

/-- Widen a binary32 bit pattern to the binary64 bit pattern of the same
value, as `struct.unpack("!f", ...)` materializing a Python float does. -/
def widen32to64 (b32 : Nat) : Nat :=
  let sign := (b32 >>> 31) &&& 1
  let e := (b32 >>> 23) &&& 0xFF
  let m := b32 &&& (2 ^ 23 - 1)
  if e == 0xFF then (sign <<< 63) ||| (0x7FF <<< 52) ||| (m <<< 29)
  else if e == 0 then
    if m == 0 then sign <<< 63
    else
      let p := Nat.log2 m
      (sign <<< 63) ||| ((p + 874) <<< 52) ||| ((m <<< (52 - p)) - 2 ^ 52)
  else (sign <<< 63) ||| ((e + 896) <<< 52) ||| (m <<< 29)

/-- Python `float(n)` on an integer: the binary64 bit pattern of the nearest
double (ties to even), `OverflowError` beyond the finite range. -/
def intToFloat64 (n : Int) : Except Err Nat :=
  let sign : Nat := if n < 0 then 1 else 0
  let a := n.natAbs
  if a == 0 then .ok 0
  else
    let p := Nat.log2 a
    if p ≤ 52 then
      .ok ((sign <<< 63) ||| ((p + 1023) <<< 52) ||| ((a <<< (52 - p)) - 2 ^ 52))
    else
      let M := roundShiftRight a (p - 52)
      let Mp : Nat × Nat := if M == 2 ^ 53 then (2 ^ 52, p + 1) else (M, p)
      if Mp.2 + 1023 ≥ 2047 then .error .overflow
      else .ok ((sign <<< 63) ||| ((Mp.2 + 1023) <<< 52) ||| (Mp.1 - 2 ^ 52))

/- ## Writer engine -/

/-- Python truthiness of a datum, as `write_boolean`'s `if datum:` sees it
(`0`, `0.0`, `-0.0`, empty containers and `None` are falsy). -/
def pyTruthy : Datum → Bool
  | .none => false
  | .bool b => b
  | .int n => n != 0
  | .float bits => !(bits == 0 || bits == 2 ^ 63)
  | .bytes bs => !bs.isEmpty
  | .string s => !s.isEmpty
  | .list xs => !xs.isEmpty
  | .dict kvs => !kvs.isEmpty

/-- `BinaryEncoder.write_boolean`: one byte, `chr(1)` for a truthy datum,
`chr(0)` otherwise. -/
def write_boolean (datum : Datum) : Bytes :=
  if pyTruthy datum then [1] else [0]

/-- The arithmetic coercion `write_long`'s shifts apply to the datum
(booleans are ints in Python 2; anything else raises `TypeError`). -/
def intOfDatum : Datum → Except Err Int
  | .int n => .ok n
  | .bool b => .ok (if b then 1 else 0)
  | _ => .error .typeError

/-- The `float(datum)` coercion `struct.pack` applies for `f`/`d` formats. -/
def floatOfDatum : Datum → Except Err Nat
  | .float bits => .ok bits
  | .int n => intToFloat64 n
  | .bool b => intToFloat64 (if b then 1 else 0)
  | _ => .error .typeError

/-- `BinaryEncoder.write_bytes`: a long length prefix then the raw bytes. -/
def write_bytes (bs : Bytes) : Bytes :=
  write_long (Int.ofNat bs.length) ++ bs

/-- `BinaryEncoder.write_utf8`: encode as UTF-8 then `write_bytes`. -/
def write_utf8 (s : String) : Bytes :=
  write_bytes (utf8Encode s.data)

/-- Python `list.index(x)`: the first index of `x`, `ValueError` (None here)
when absent; used by `write_enum`. -/
def listIndex (xs : List String) (x : String) : Option Nat :=
  match xs with
  | [] => .none
  | y :: ys => if y == x then .some 0 else (listIndex ys x).map (· + 1)

mutual
/-- `write_data(writers_schema, datum, encoder)`: dispatch through
`__datum_to_encoder__`, with the source's `except Exception` clause
re-raising every failure as `AvroException("Unknown type: %s" % type)`. -/
def write_data (W : Schema) (datum : Datum) : Except Err Bytes :=
  match writeDatum W datum with
  | .ok bs => .ok bs
  | .error _ => .error (.avroException ("Unknown type: " ++ W.typeName))
termination_by (sizeOf W, 3)

/-- The `__datum_to_encoder__` dispatch table: the per-type writers. -/
def writeDatum : Schema → Datum → Except Err Bytes
  | .snull, _ => .ok []
  | .sboolean, d => .ok (write_boolean d)
  | .sint, d => do
      let n ← intOfDatum d
      .ok (write_long n)
  | .slong, d => do
      let n ← intOfDatum d
      .ok (write_long n)
  | .sfloat, d => do
      let bits64 ← floatOfDatum d
      let bits ← float64to32 bits64
      .ok (bytesLE 4 bits)
  | .sdouble, d => do
      let bits ← floatOfDatum d
      .ok (bytesLE 8 bits)
  | .sbytes, d =>
      (match d with
      | .bytes bs => .ok (write_bytes bs)
      | _ => .error .typeError)
  | .sstring, d =>
      (match d with
      | .string s => .ok (write_utf8 s)
      | .bytes bs =>
        -- Python 2 `str.encode("utf-8")` first decodes as ASCII
        if bs.all (· < 0x80) then .ok (write_bytes bs) else .error .encoding
      | _ => .error .typeError)
  | .sfixed _ _, d =>
      (match d with
      | .bytes bs => .ok bs
      | _ => .error .typeError)
  | .senum _ syms, d =>
      (match d with
      | .string s =>
        match listIndex syms s with
        | .some i => .ok (write_int (Int.ofNat i))
        | .none => .error .valueError
      | _ => .error .valueError)
  | .sarray items, d => write_array (.sarray items) d
  | .smap values, d => write_map (.smap values) d
  | .sunion ss, d => write_union (.sunion ss) d
  | .serrorUnion ss, d => write_union (.serrorUnion ss) d
  | .srecord _ fs, d =>
      (match d with
      | .dict kvs => writeRecordFields fs kvs
      | _ => .error .typeError)
  | .serror _ fs, d =>
      (match d with
      | .dict kvs => writeRecordFields fs kvs
      | _ => .error .typeError)
  | .srequest fs, d =>
      (match d with
      | .dict kvs => writeRecordFields fs kvs
      | _ => .error .typeError)
termination_by W _ => (sizeOf W, 2)

/-- `write_array(writers_schema, datum, encoder)`: when the sequence is
non-empty, a long count then each item's encoding; then the terminating
`write_long(0)` — an empty sequence writes only the terminator. -/
def write_array (W : Schema) (datum : Datum) : Except Err Bytes :=
  match W, datum with
  | .sarray items, .list xs =>
    if xs.length > 0 then do
      let body ← writeItems items xs
      .ok (write_long (Int.ofNat xs.length) ++ body ++ write_long 0)
    else .ok (write_long 0)
  | _, _ => .error .typeError
termination_by (sizeOf W, 1)

/-- `write_map`: the same block framing over the dict's entries, each entry
a `write_utf8` key then the value. -/
def write_map (W : Schema) (datum : Datum) : Except Err Bytes :=
  match W, datum with
  | .smap values, .dict kvs =>
    if kvs.length > 0 then do
      let body ← writeMapItems values kvs
      .ok (write_long (Int.ofNat kvs.length) ++ body ++ write_long 0)
    else .ok (write_long 0)
  | _, _ => .error .typeError
termination_by (sizeOf W, 1)

/-- `write_union(writers_schema, datum, encoder)`: resolve the union by
searching the branches in order for the first whose `validate` accepts the
datum, then write the branch index as a long followed by the branch
encoding; `AvroTypeException` when no branch validates. -/
def write_union (W : Schema) (datum : Datum) : Except Err Bytes :=
  match W with
  | .sunion ss => writeUnionGo (.sunion ss) 0 ss datum
  | .serrorUnion ss => writeUnionGo (.serrorUnion ss) 0 ss datum
  | _ => .error .typeError
termination_by (sizeOf W, 1)

/-- `write_array`/`write_map` item loop: each item through `write_data`. -/
def writeItems : Schema → List Datum → Except Err Bytes
  | _, [] => .ok []
  | s, d :: ds => do
      let b ← write_data s d
      let rest ← writeItems s ds
      .ok (b ++ rest)
termination_by s ds => (sizeOf s, ds.length + 4)

/-- `write_map` entry loop: `write_utf8(key)` then the value. -/
def writeMapItems : Schema → List (String × Datum) → Except Err Bytes
  | _, [] => .ok []
  | s, (k, v) :: kvs => do
      let b ← write_data s v
      let rest ← writeMapItems s kvs
      .ok (write_utf8 k ++ b ++ rest)
termination_by s kvs => (sizeOf s, kvs.length + 4)

/-- `write_union`'s search: the first branch validating the datum is written
as `write_long(branch_index)` then the branch encoding; if none validates,
`AvroTypeException(writers_schema, datum)`. -/
def writeUnionGo (W : Schema) (i : Nat) : List Schema → Datum → Except Err Bytes
  | [], d => .error (.avroType W d)
  | s :: ss, d =>
      if validate s d then do
        let b ← write_data s d
        .ok (write_long (Int.ofNat i) ++ b)
      else writeUnionGo W (i + 1) ss d
termination_by ss _ => (sizeOf ss, 0)

/-- `write_record`: each field in declaration order, the datum's binding or
`None` when absent. -/
def writeRecordFields : List Field → List (String × Datum) → Except Err Bytes
  | [], _ => .ok []
  | .mk n t _ _ :: fs, kvs => do
      let b ← write_data t (dictGet kvs n)
      let rest ← writeRecordFields fs kvs
      .ok (b ++ rest)
termination_by fs _ => (sizeOf fs, 0)
end

/- ## Reader-side primitives -/

/-- Python list subscription with an `int` index: non-negative indices from
the front, negative indices from the back, `IndexError` (None) outside
`[-len, len)`. -/
def pyListIdx {α : Type} (xs : List α) (i : Int) : Option α :=
  if 0 ≤ i then xs[i.toNat]?
  else if 0 ≤ i + xs.length then xs[(i + xs.length).toNat]?
  else .none

/-- `decoder.skip(n)`: `seek(tell() + n)`.  A backward seek cannot be
represented on the suffix model of the byte source; it is reported as
`Err.badSeek` and unreachable in every proved statement. -/
def pySkip (n : Int) (input : Bytes) : Except Err Bytes :=
  if n < 0 then .error .badSeek else .ok (input.drop n.toNat)

/-- The loop of `BinaryDecoder.skip_long`: consume continuation bytes. -/
def skipLongGo : Bytes → Nat → Except Err Bytes
  | input, b =>
    if b &&& 0x80 ≠ 0 then
      match input with
      | [] => .error .truncated
      | c :: rest => skipLongGo rest c
    else .ok input

/-- `BinaryDecoder.skip_long` (also `skip_int`). -/
def skip_long (input : Bytes) : Except Err Bytes :=
  match input with
  | [] => .error .truncated
  | b :: rest => skipLongGo rest b

/-- `BinaryDecoder.skip_bytes` (also `skip_utf8`): skip over a long length
then that many bytes. -/
def skip_bytes (input : Bytes) : Except Err Bytes := do
  let (n, rest) ← read_long input
  pySkip n rest

/-- `BinaryDecoder.read_bytes`: `self.read(self.read_long())`. -/
def readBytesPrim (input : Bytes) : Except Err (Bytes × Bytes) := do
  let (n, rest) ← read_long input
  let (taken, rest2) := pyRead n rest
  .ok (taken, rest2)

/-- `BinaryDecoder.read_utf8`: `unicode(self.read_bytes(), "utf-8")`. -/
def readUtf8Prim (input : Bytes) : Except Err (String × Bytes) := do
  let (bs, rest) ← readBytesPrim input
  match utf8Decode bs with
  | .some cs => .ok (String.mk cs, rest)
  | .none => .error .encoding

/-- The by-name field index `fields_dict`.  Modelled from the spec: the
schema model (outside the staged sources) exposes `fields_dict`, a by-name
index of the fields; field names within one record schema are unique. -/
def fieldsDict (fs : List Field) : List (String × Field) :=
  fs.map (fun f => (f.name, f))

/-- Lookup in `fields_dict`. -/
def fieldLookup : List Field → String → Option Field
  | [], _ => .none
  | f :: fs, n => if f.name == n then .some f else fieldLookup fs n

/-- Python `dict` assignment `d[k] = v`: replace the binding in place when
the key exists, append otherwise. -/
def dictUpdate : List (String × Datum) → String → Datum → List (String × Datum)
  | [], k, v => [(k, v)]
  | (k', v') :: rest, k, v =>
      if k' == k then (k, v) :: rest else (k', v') :: dictUpdate rest k v

/- ## Default-value reifier -/

/-- Python truthiness of a JSON-shaped default, as `bool(default_value)`. -/
def pyTruthyJson : Json → Bool
  | .null => false
  | .bool b => b
  | .int n => n != 0
  | .float bits => !(bits == 0 || bits == 2 ^ 63)
  | .str s => !s.isEmpty
  | .arr xs => !xs.isEmpty
  | .obj kvs => !kvs.isEmpty

/-- The binary64 value truncated toward zero, as Python `int(float)`;
`ValueError`/`OverflowError` on NaN and infinities. -/
def floatTruncToInt (bits : Nat) : Except Err Int :=
  let sign : Int := if (bits >>> 63) &&& 1 == 1 then -1 else 1
  let e := (bits >>> 52) &&& 0x7FF
  let m := bits &&& (2 ^ 52 - 1)
  if e == 0x7FF then .error .overflow
  else
    let M := if e == 0 then m else m + 2 ^ 52
    if e < 1075 then .ok (sign * (M >>> (1075 - e) : Nat))
    else .ok (sign * (M <<< (e - 1075) : Nat))

/-- Python `int(x)` on a JSON-shaped value (also `long(x)`). -/
def pyIntOfJson : Json → Except Err Int
  | .int n => .ok n
  | .bool b => .ok (if b then 1 else 0)
  | .float bits => floatTruncToInt bits
  | .str s =>
      match s.toInt? with
      | .some n => .ok n
      | .none => .error .valueError
  | _ => .error .typeError

/-- Python `float(x)` on a JSON-shaped value, as a binary64 bit pattern.
Decimal text literals are outside the modelled fragment (no proved statement
exercises a textual float default). -/
def pyFloatOfJson : Json → Except Err Nat
  | .float bits => .ok bits
  | .int n => intToFloat64 n
  | .bool b => intToFloat64 (if b then 1 else 0)
  | .str _ => .error .valueError
  | _ => .error .typeError

mutual
/-- The identity embedding of a JSON-shaped value as the Python object the
`json` module built for it: the `enum`/`fixed`/`string`/`bytes` cases of
`read_default_value` pass the default through unchanged. -/
def jsonToDatum : Json → Datum
  | .null => .none
  | .bool b => .bool b
  | .int n => .int n
  | .float bits => .float bits
  | .str s => .string s
  | .arr xs => .list (jsonToDatumList xs)
  | .obj kvs => .dict (jsonToDatumObj kvs)

def jsonToDatumList : List Json → List Datum
  | [] => []
  | x :: xs => jsonToDatum x :: jsonToDatumList xs

def jsonToDatumObj : List (String × Json) → List (String × Datum)
  | [] => []
  | (k, v) :: kvs => (k, jsonToDatum v) :: jsonToDatumObj kvs
end

/-- Lookup in a JSON object, `default_value.get(field.name)`. -/
def jsonObjGet : List (String × Json) → String → Option Json
  | [], _ => .none
  | (k, v) :: kvs, n => if k == n then .some v else jsonObjGet kvs n

mutual
/-- `read_default_value(field_schema, default_value)`: reify the JSON-shaped
default into a datum of the field's schema. -/
def read_default_value : Schema → Json → Except Err Datum
  | .snull, _ => .ok .none
  | .sboolean, dv => .ok (.bool (pyTruthyJson dv))
  | .sint, dv => do
      let n ← pyIntOfJson dv
      .ok (.int n)
  | .slong, dv => do
      let n ← pyIntOfJson dv
      .ok (.int n)
  | .sfloat, dv => do
      let bits ← pyFloatOfJson dv
      .ok (.float bits)
  | .sdouble, dv => do
      let bits ← pyFloatOfJson dv
      .ok (.float bits)
  | .senum _ _, dv => .ok (jsonToDatum dv)
  | .sfixed _ _, dv => .ok (jsonToDatum dv)
  | .sstring, dv => .ok (jsonToDatum dv)
  | .sbytes, dv => .ok (jsonToDatum dv)
  | .sarray items, dv =>
      (match dv with
      | .arr xs => do
        let ds ← readDefaultItems items xs
        .ok (.list ds)
      | _ => .error .typeError)
  | .smap values, dv =>
      (match dv with
      | .obj kvs => do
        let ds ← readDefaultMapValues values kvs
        .ok (.dict ds)
      | _ => .error .typeError)
  | .sunion ss, dv =>
      (match ss with
      | s :: _ => read_default_value s dv
      | [] => .error .indexError)
  | .serrorUnion ss, dv =>
      (match ss with
      | s :: _ => read_default_value s dv
      | [] => .error .indexError)
  | .srecord _ fs, dv =>
      (match dv with
      | .obj kvs => do
        let ds ← readDefaultFields fs kvs
        .ok (.dict ds)
      | _ => .error .typeError)
  | .serror _ fs, dv =>
      (match dv with
      | .obj kvs => do
        let ds ← readDefaultFields fs kvs
        .ok (.dict ds)
      | _ => .error .typeError)
  | .srequest fs, dv =>
      (match dv with
      | .obj kvs => do
        let ds ← readDefaultFields fs kvs
        .ok (.dict ds)
      | _ => .error .typeError)
termination_by s _ => (sizeOf s, 0)

def readDefaultItems : Schema → List Json → Except Err (List Datum)
  | _, [] => .ok []
  | s, x :: xs => do
      let d ← read_default_value s x
      let ds ← readDefaultItems s xs
      .ok (d :: ds)
termination_by s xs => (sizeOf s, xs.length + 1)

def readDefaultMapValues : Schema → List (String × Json) → Except Err (List (String × Datum))
  | _, [] => .ok []
  | s, (k, x) :: kvs => do
      let d ← read_default_value s x
      let ds ← readDefaultMapValues s kvs
      .ok ((k, d) :: ds)
termination_by s kvs => (sizeOf s, kvs.length + 1)

/-- The record case of `read_default_value`: for each field take the
sub-default bound to its name (a JSON `null` is Python `None` and falls back
to the field's own default, as does a missing binding). -/
def readDefaultFields : List Field → List (String × Json) → Except Err (List (String × Datum))
  | [], _ => .ok []
  | .mk n t _ fdef :: fs, kvs => do
      let jv :=
        match jsonObjGet kvs n with
        | .some Json.null => fdef
        | .some v => v
        | .none => fdef
      let d ← read_default_value t jv
      let ds ← readDefaultFields fs kvs
      .ok ((n, d) :: ds)
termination_by fs _ => (sizeOf fs, 0)
end

/- ## Skipper engine (fuel-indexed: the block loops are wire-driven) -/

mutual
/-- `skip_data(writers_schema, decoder)`: the `__type_to_skipper__`
dispatch. -/
def skip_data : Nat → Schema → Bytes → Except Err Bytes
  | 0, _, _ => .error .fuelExhausted
  | fuel + 1, W, input =>
    match W with
    | .snull => .ok input
    | .sboolean => pySkip 1 input
    | .sint => skip_long input
    | .slong => skip_long input
    | .sfloat => pySkip 4 input
    | .sdouble => pySkip 8 input
    | .sbytes => skip_bytes input
    | .sstring => skip_bytes input
    | .sfixed _ size => pySkip (Int.ofNat size) input
    | .senum _ _ => skip_long input
    | .sarray items => skipBlocksArr fuel items input
    | .smap values => skipBlocksMap fuel values input
    | .sunion _ => skip_union fuel W input
    | .serrorUnion _ => skip_union fuel W input
    | .srecord _ fs => skipRecordGo fuel fs input
    | .serror _ fs => skipRecordGo fuel fs input
    | .srequest fs => skipRecordGo fuel fs input
termination_by structural fuel _ _ => fuel

/-- `skip_union`: read the branch index and skip per the selected branch.
An index outside the writer's branch list executes
`raise SchemaResolutionException(fail_msg, writers_schema)` — but that
constructor unconditionally evaluates
`json.loads(str(readers_schema))` before its `if readers_schema:` guard,
and the omitted `readers_schema` defaults to `None`, so `json.loads("None")`
raises `ValueError` before the exception is built: the error that escapes is
a `ValueError` carrying neither schema. -/
def skip_union : Nat → Schema → Bytes → Except Err Bytes
  | 0, _, _ => .error .fuelExhausted
  | fuel + 1, W, input => do
    let (i, rest) ← read_long input
    match pyListIdx W.schemas i with
    | .some s => skip_data fuel s rest
    | .none => .error .valueError
termination_by structural fuel _ _ => fuel

/-- `skip_array`'s block loop: a negative count is followed by a byte size
used to seek over the block; a positive count skips that many items. -/
def skipBlocksArr : Nat → Schema → Bytes → Except Err Bytes
  | 0, _, _ => .error .fuelExhausted
  | fuel + 1, items, input => do
    let (bc, rest) ← read_long input
    if bc == 0 then .ok rest
    else if bc < 0 then do
      let (bsize, rest2) ← read_long rest
      let rest3 ← pySkip bsize rest2
      skipBlocksArr fuel items rest3
    else do
      let rest2 ← skipItemsArr fuel bc.toNat items rest
      skipBlocksArr fuel items rest2
termination_by structural fuel _ _ => fuel

def skipItemsArr : Nat → Nat → Schema → Bytes → Except Err Bytes
  | 0, _, _, _ => .error .fuelExhausted
  | _ + 1, 0, _, input => .ok input
  | fuel + 1, k + 1, items, input => do
    let rest ← skip_data fuel items input
    skipItemsArr fuel k items rest
termination_by structural fuel _ _ _ => fuel

/-- `skip_map`'s block loop. -/
def skipBlocksMap : Nat → Schema → Bytes → Except Err Bytes
  | 0, _, _ => .error .fuelExhausted
  | fuel + 1, values, input => do
    let (bc, rest) ← read_long input
    if bc == 0 then .ok rest
    else if bc < 0 then do
      let (bsize, rest2) ← read_long rest
      let rest3 ← pySkip bsize rest2
      skipBlocksMap fuel values rest3
    else do
      let rest2 ← skipItemsMap fuel bc.toNat values rest
      skipBlocksMap fuel values rest2
termination_by structural fuel _ _ => fuel

def skipItemsMap : Nat → Nat → Schema → Bytes → Except Err Bytes
  | 0, _, _, _ => .error .fuelExhausted
  | _ + 1, 0, _, input => .ok input
  | fuel + 1, k + 1, values, input => do
    let rest1 ← skip_bytes input
    let rest2 ← skip_data fuel values rest1
    skipItemsMap fuel k values rest2
termination_by structural fuel _ _ _ => fuel

/-- `skip_record`: skip each field per its schema. -/
def skipRecordGo : Nat → List Field → Bytes → Except Err Bytes
  | 0, _, _ => .error .fuelExhausted
  | _ + 1, [], input => .ok input
  | fuel + 1, f :: fs, input => do
    let rest ← skip_data fuel f.type input
    skipRecordGo fuel fs rest
termination_by structural fuel _ _ => fuel
end

/- ## Reader engine (fuel-indexed) -/

/-- `read_enum`: read the wire index, fail `SchemaResolution` when it is at
least the writer's symbol count, resolve the symbol by (Python) list
subscription, then fail `SchemaResolution` when the symbol is absent from
the reader's symbols. -/
def read_enum (W R : Schema) (input : Bytes) : Except Err (Datum × Bytes) := do
  let (i, rest) ← read_int input
  if (W.symbols.length : Int) ≤ i then
    .error (.schemaResolution
      ("Can\'t access enum index " ++ toString i ++ " for enum with "
        ++ toString W.symbols.length ++ " symbols") (.some W) (.some R))
  else
    match pyListIdx W.symbols i with
    | .none => .error .indexError
    | .some sym =>
      if R.symbols.contains sym then .ok (.string sym, rest)
      else
        .error (.schemaResolution
          ("Symbol " ++ sym ++ " not present in Reader\'s Schema")
          (.some W) (.some R))

/-- `read_fixed`: exactly the writer's declared size, raw. -/
def read_fixed (W : Schema) (input : Bytes) : Except Err (Datum × Bytes) :=
  let (taken, rest) := pyRead (Int.ofNat W.size) input
  .ok (.bytes taken, rest)

/-- The union/error_union tags, as `writers_schema.type in ['union',
'error_union']` tests them. -/
def isUnionTag (s : Schema) : Bool :=
  s.typeName == "union" || s.typeName == "error_union"

/-- Phase two of `read_record`'s schema resolution: walk the reader's
fields; one absent from the writer's `fields_dict` is bound to its reified
default, or the decode fails `SchemaResolution` without one. -/
def fillDefaults (W R : Schema) :
    List Field → List (String × Datum) → Except Err (List (String × Datum))
  | [], acc => .ok acc
  | rf :: rfs, acc =>
    if W.fields.any (fun f => f.name == rf.name) then fillDefaults W R rfs acc
    else if rf.has_default then do
      let v ← read_default_value rf.type rf.default
      fillDefaults W R rfs (acc ++ [(rf.name, v)])
    else
      .error (.schemaResolution ("No default value for field " ++ rf.name)
        (.some W) (.some R))

mutual
/-- `read_data(writers_schema, readers_schema, decoder)`: when the two
schemas are not the same object, check `match_schema`, re-target a
non-union writer against the first matching branch of a union reader, then
dispatch on the writer's type. -/
def read_data : Nat → Schema → Schema → Bytes → Except Err (Datum × Bytes)
  | 0, _, _, _ => .error .fuelExhausted
  | fuel + 1, W, R, input =>
    if Schema.beq R W then readDispatch fuel W R input
    else if ¬ match_schema W R then
      .error (.schemaResolution "Schemas do not match." (.some W) (.some R))
    else if ¬ isUnionTag W && isUnionTag R then
      readUnionTargetGo fuel W R R.schemas input
    else readDispatch fuel W R input
termination_by structural fuel _ _ _ => fuel

/-- The loop `for s in readers_schema.schemas: if match_schema(W, s):
return read_data(W, s, decoder)`, else `SchemaResolution`. -/
def readUnionTargetGo : Nat → Schema → Schema → List Schema → Bytes →
    Except Err (Datum × Bytes)
  | 0, _, _, _, _ => .error .fuelExhausted
  | _ + 1, W, R, [], _ =>
      .error (.schemaResolution "Schemas do not match." (.some W) (.some R))
  | fuel + 1, W, R, s :: ss, input =>
      if match_schema W s then read_data fuel W s input
      else readUnionTargetGo fuel W R ss input
termination_by structural fuel _ _ _ _ => fuel

/-- The `__type_to_decoder__` dispatch on the writer's type. -/
def readDispatch : Nat → Schema → Schema → Bytes → Except Err (Datum × Bytes)
  | 0, _, _, _ => .error .fuelExhausted
  | fuel + 1, W, R, input =>
    match W with
    | .snull => .ok (.none, input)
    | .sboolean =>
      (match input with
      | [] => .error .truncated
      | b :: rest => .ok (.bool (b == 1), rest))
    | .sint => do
      let (n, rest) ← read_long input
      .ok (.int n, rest)
    | .slong => do
      let (n, rest) ← read_long input
      .ok (.int n, rest)
    | .sfloat =>
      let (taken, rest) := pyRead 4 input
      .ok (.float (widen32to64 (assembleLE taken)), rest)
    | .sdouble =>
      let (taken, rest) := pyRead 8 input
      .ok (.float (assembleLE taken), rest)
    | .sbytes => do
      let (bs, rest) ← readBytesPrim input
      .ok (.bytes bs, rest)
    | .sstring => do
      let (s, rest) ← readUtf8Prim input
      .ok (.string s, rest)
    | .sfixed _ _ => read_fixed W input
    | .senum _ _ => read_enum W R input
    | .sarray _ => readBlocksArr fuel W.items R.items input []
    | .smap _ => readBlocksMap fuel W.values R.values input []
    | .sunion _ => read_union fuel W R input
    | .serrorUnion _ => read_union fuel W R input
    | .srecord _ _ => read_record fuel W R input
    | .serror _ _ => read_record fuel W R input
    | .srequest _ => read_record fuel W R input
termination_by structural fuel _ _ _ => fuel

/-- `read_union`: read the branch index; an index outside the writer's
branch list raises `SchemaResolution` carrying both schemas, otherwise
recurse with the selected writer branch. -/
def read_union : Nat → Schema → Schema → Bytes → Except Err (Datum × Bytes)
  | 0, _, _, _ => .error .fuelExhausted
  | fuel + 1, W, R, input => do
    let (i, rest) ← read_long input
    match pyListIdx W.schemas i with
    | .some s => read_data fuel s R rest
    | .none =>
      .error (.schemaResolution
        ("Can\'t access branch index " ++ toString i ++ " for union with "
          ++ toString W.schemas.length ++ " branches")
        (.some W) (.some R))
termination_by structural fuel _ _ _ => fuel

/-- `read_array`'s block loop, extending the accumulated items. -/
def readBlocksArr : Nat → Schema → Schema → Bytes → List Datum →
    Except Err (Datum × Bytes)
  | 0, _, _, _, _ => .error .fuelExhausted
  | fuel + 1, Wi, Ri, input, acc => do
    let (bc, input1) ← read_long input
    if bc == 0 then .ok (.list acc, input1)
    else if bc < 0 then do
      let (_, input2) ← read_long input1
      let (acc2, input3) ← readItemsArr fuel (-bc).toNat Wi Ri input2 acc
      readBlocksArr fuel Wi Ri input3 acc2
    else do
      let (acc2, input2) ← readItemsArr fuel bc.toNat Wi Ri input1 acc
      readBlocksArr fuel Wi Ri input2 acc2
termination_by structural fuel _ _ _ _ => fuel

def readItemsArr : Nat → Nat → Schema → Schema → Bytes → List Datum →
    Except Err (List Datum × Bytes)
  | 0, _, _, _, _, _ => .error .fuelExhausted
  | _ + 1, 0, _, _, input, acc => .ok (acc, input)
  | fuel + 1, k + 1, Wi, Ri, input, acc => do
    let (d, rest) ← read_data fuel Wi Ri input
    readItemsArr fuel k Wi Ri rest (acc ++ [d])
termination_by structural fuel _ _ _ _ _ => fuel

/-- `read_map`'s block loop, updating the accumulated dict. -/
def readBlocksMap : Nat → Schema → Schema → Bytes → List (String × Datum) →
    Except Err (Datum × Bytes)
  | 0, _, _, _, _ => .error .fuelExhausted
  | fuel + 1, Wv, Rv, input, acc => do
    let (bc, input1) ← read_long input
    if bc == 0 then .ok (.dict acc, input1)
    else if bc < 0 then do
      let (_, input2) ← read_long input1
      let (acc2, input3) ← readItemsMap fuel (-bc).toNat Wv Rv input2 acc
      readBlocksMap fuel Wv Rv input3 acc2
    else do
      let (acc2, input2) ← readItemsMap fuel bc.toNat Wv Rv input1 acc
      readBlocksMap fuel Wv Rv input2 acc2
termination_by structural fuel _ _ _ _ => fuel

def readItemsMap : Nat → Nat → Schema → Schema → Bytes → List (String × Datum) →
    Except Err (List (String × Datum) × Bytes)
  | 0, _, _, _, _, _ => .error .fuelExhausted
  | _ + 1, 0, _, _, input, acc => .ok (acc, input)
  | fuel + 1, k + 1, Wv, Rv, input, acc => do
    let (key, rest1) ← readUtf8Prim input
    let (v, rest2) ← read_data fuel Wv Rv rest1
    readItemsMap fuel k Wv Rv rest2 (dictUpdate acc key v)
termination_by structural fuel _ _ _ _ _ => fuel

/-- `read_record`: the identity fast path reads each field against its own
schema; otherwise fields are matched by name against the reader's
`fields_dict` (reading or skipping), then missing reader fields get their
defaults injected. -/
def read_record : Nat → Schema → Schema → Bytes → Except Err (Datum × Bytes)
  | 0, _, _, _ => .error .fuelExhausted
  | fuel + 1, W, R, input =>
    if Schema.beq R W then do
      let (kvs, rest) ← readFieldsSame fuel W.fields input []
      .ok (.dict kvs, rest)
    else do
      let (kvs, rest) ← readFieldsRes fuel W.fields R.fields input []
      if (fieldsDict R.fields).length > kvs.length then do
        let kvs2 ← fillDefaults W R R.fields kvs
        .ok (.dict kvs2, rest)
      else .ok (.dict kvs, rest)
termination_by structural fuel _ _ _ => fuel

/-- The identity fast path of `read_record`:
`dict((f.name, read_data(f.type, f.type, decoder)) for f in fields)`. -/
def readFieldsSame : Nat → List Field → Bytes → List (String × Datum) →
    Except Err (List (String × Datum) × Bytes)
  | 0, _, _, _ => .error .fuelExhausted
  | _ + 1, [], input, acc => .ok (acc, input)
  | fuel + 1, f :: fs, input, acc => do
    let (v, rest) ← read_data fuel f.type f.type input
    readFieldsSame fuel fs rest (acc ++ [(f.name, v)])
termination_by structural fuel _ _ _ => fuel

/-- Phase one of `read_record`'s schema resolution: each writer field in
declaration order is read against the like-named reader field, or its bytes
are skipped when the reader has no such field. -/
def readFieldsRes : Nat → List Field → List Field → Bytes →
    List (String × Datum) → Except Err (List (String × Datum) × Bytes)
  | 0, _, _, _, _ => .error .fuelExhausted
  | _ + 1, [], _, input, acc => .ok (acc, input)
  | fuel + 1, f :: wfs, rfs, input, acc =>
    match fieldLookup rfs f.name with
    | .some rf => do
      let (v, rest) ← read_data fuel f.type rf.type input
      readFieldsRes fuel wfs rfs rest (acc ++ [(f.name, v)])
    | .none => do
      let rest ← skip_data fuel f.type input
      readFieldsRes fuel wfs rfs rest acc
termination_by structural fuel _ _ _ _ => fuel
end

/- ## Canonical data: the image of decoding

The single-schema round-trip cannot return every datum `validate` accepts
unchanged: the validator is lossy (a record dict may omit fields, a
`float`-schema datum need not be representable in binary32, an `int` may ride
a `double` schema, dict keys may repeat, ...).  `canonical` carves out the
data in decoder normal form — the shapes `read_data` itself produces — and
the corrected round-trip statement quantifies over those. -/

def distinctKeys : List String → Bool
  | [] => true
  | k :: ks => !(ks.contains k) && distinctKeys ks

/-- The position the reader's union re-targeting loop selects: the index of
the first branch `r` with `match_schema s r`. -/
def firstMatchIdx : List Schema → Schema → Option Nat
  | [], _ => .none
  | r :: rs, s => if match_schema s r then .some 0 else (firstMatchIdx rs s).map (· + 1)

mutual
/-- Decoder-normal-form data for a schema: the datum has the exact shape and
range the decoder emits for that schema (value in the schema's own numeric
range, floats bit-exact in the schema's width, record dicts binding exactly
the fields in declaration order, union data selecting a branch the reader
re-targets to the same position, lengths within the `long` range). -/
def canonical : Schema → Datum → Bool
  | .snull, d => match d with | .none => true | _ => false
  | .sboolean, d => match d with | .bool _ => true | _ => false
  | .sint, d =>
      match d with
      | .int n => decide (INT_MIN_VALUE ≤ n ∧ n ≤ INT_MAX_VALUE)
      | _ => false
  | .slong, d =>
      match d with
      | .int n => decide (LONG_MIN_VALUE ≤ n ∧ n ≤ LONG_MAX_VALUE)
      | _ => false
  | .sfloat, d =>
      match d with
      | .float bits =>
        (match float64to32 bits with
        | .ok b32 => decide (b32 < 2 ^ 32) && (widen32to64 b32 == bits)
        | .error _ => false)
      | _ => false
  | .sdouble, d =>
      match d with
      | .float bits => decide (bits < 2 ^ 64)
      | _ => false
  | .sbytes, d =>
      match d with
      | .bytes bs => decide ((bs.length : Int) ≤ LONG_MAX_VALUE)
      | _ => false
  | .sstring, d =>
      match d with
      | .string s => decide (((utf8Encode s.data).length : Int) ≤ LONG_MAX_VALUE)
      | _ => false
  | .sfixed _ size, d => match d with | .bytes bs => bs.length == size | _ => false
  | .senum _ syms, d =>
      match d with
      | .string s =>
        (match listIndex syms s with
        | .some i => decide ((i : Int) ≤ LONG_MAX_VALUE)
        | .none => false)
      | _ => false
  | .sarray items, d =>
      match d with
      | .list xs => decide ((xs.length : Int) ≤ LONG_MAX_VALUE) && canonicalItems items xs
      | _ => false
  | .smap values, d =>
      match d with
      | .dict kvs =>
        decide ((kvs.length : Int) ≤ LONG_MAX_VALUE) &&
          distinctKeys (kvs.map Prod.fst) && canonicalEntries values kvs
      | _ => false
  | .sunion ss, d => canonicalUnionGo ss 0 ss d
  | .serrorUnion ss, d => canonicalUnionGo ss 0 ss d
  | .srecord _ fields, d =>
      match d with
      | .dict kvs => distinctKeys (fields.map Field.name) && canonicalFields fields kvs
      | _ => false
  | .serror _ fields, d =>
      match d with
      | .dict kvs => distinctKeys (fields.map Field.name) && canonicalFields fields kvs
      | _ => false
  | .srequest fields, d =>
      match d with
      | .dict kvs => distinctKeys (fields.map Field.name) && canonicalFields fields kvs
      | _ => false
termination_by s _ => (sizeOf s, 0)

def canonicalItems : Schema → List Datum → Bool
  | _, [] => true
  | s, d :: ds => canonical s d && canonicalItems s ds
termination_by s ds => (sizeOf s, ds.length + 1)

def canonicalEntries : Schema → List (String × Datum) → Bool
  | _, [] => true
  | s, (k, v) :: kvs =>
      decide (((utf8Encode k.data).length : Int) ≤ LONG_MAX_VALUE) &&
        canonical s v && canonicalEntries s kvs
termination_by s kvs => (sizeOf s, kvs.length + 1)

/-- The union branch the writer selects (the first validating one),
constrained so the reader's re-targeting loop lands on the same position:
walking the branches with running index `i` against the full branch list. -/
def canonicalUnionGo (full : List Schema) (i : Nat) : List Schema → Datum → Bool
  | [], _ => false
  | s :: rest, d =>
      if validate s d then
        canonical s d && !(isUnionTag s) &&
          (firstMatchIdx full s == .some i) && decide ((i : Int) ≤ LONG_MAX_VALUE)
      else canonicalUnionGo full (i + 1) rest d
termination_by rest _ => (sizeOf rest, 0)

/-- Record canonicity: the dict binds exactly the record's fields, in
declaration order. -/
def canonicalFields : List Field → List (String × Datum) → Bool
  | [], kvs => kvs.isEmpty
  | .mk n t _ _ :: fs, kvs =>
      match kvs with
      | [] => false
      | (k, v) :: kvs2 => k == n && canonical t v && canonicalFields fs kvs2
termination_by fs _ => (sizeOf fs, 0)
end

/-! ## Theorems -/

theorem or128_and128 (m : Nat) : ((m &&& 0x7F) ||| 0x80) &&& 0x80 = 0x80 := by
  apply Nat.eq_of_testBit_eq
  intro i
  have h7 : (0x80 : Nat) = 2 ^ 7 := by norm_num
  have h7' : (0x7F : Nat) = 2 ^ 7 - 1 := by norm_num
  rw [h7, h7']
  simp only [Nat.testBit_and, Nat.testBit_or, Nat.testBit_two_pow,
    Nat.testBit_two_pow_sub_one]
  rcases eq_or_ne (7 : Nat) i with h | h <;> simp [h]

theorem or128_and127 (m : Nat) : ((m &&& 0x7F) ||| 0x80) &&& 0x7F = m &&& 0x7F := by
  apply Nat.eq_of_testBit_eq
  intro i
  have h7 : (0x80 : Nat) = 2 ^ 7 := by norm_num
  have h7' : (0x7F : Nat) = 2 ^ 7 - 1 := by norm_num
  rw [h7, h7']
  simp only [Nat.testBit_and, Nat.testBit_or, Nat.testBit_two_pow,
    Nat.testBit_two_pow_sub_one]
  rcases eq_or_ne (7 : Nat) i with h | h <;> simp [h]

theorem and128_zero_of_lt (m : Nat) (h : m < 0x80) : m &&& 0x80 = 0 := by
  apply Nat.eq_of_testBit_eq
  intro i
  have h7 : (0x80 : Nat) = 2 ^ 7 := by norm_num
  rw [h7]
  simp only [Nat.testBit_and, Nat.testBit_two_pow, Nat.zero_testBit]
  rcases eq_or_ne (7 : Nat) i with h' | h' <;> simp [h']
  subst h'
  exact Nat.testBit_lt_two_pow (by norm_num at h ⊢; omega)

theorem and127_of_lt (m : Nat) (h : m < 0x80) : m &&& 0x7F = m := by
  have h7' : (0x7F : Nat) = 2 ^ 7 - 1 := by norm_num
  rw [h7', Nat.and_pow_two_sub_one_eq_mod]
  exact Nat.mod_eq_of_lt (by norm_num at h ⊢; omega)

theorem shift_merge (m s : Nat) :
    ((m &&& 0x7F) <<< s) ||| ((m >>> 7) <<< (s + 7)) = m <<< s := by
  apply Nat.eq_of_testBit_eq
  intro i
  have h7' : (0x7F : Nat) = 2 ^ 7 - 1 := by norm_num
  rw [h7']
  simp only [Nat.testBit_or, Nat.testBit_shiftLeft, Nat.testBit_shiftRight,
    Nat.testBit_and, Nat.testBit_two_pow_sub_one]
  rcases Nat.lt_or_ge i s with h | h
  · simp [Nat.not_le.2 h, show ¬(s + 7 ≤ i) by omega]
  rcases Nat.lt_or_ge (i - s) 7 with h7 | h7
  · simp [Nat.le_of_lt_succ, h, h7, show ¬(s + 7 ≤ i) by omega]
  · have he : 7 + (i - (s + 7)) = i - s := by omega
    simp [h, show s + 7 ≤ i by omega, he, show ¬(i - s < 7) by omega]

theorem readLongGo_varint (m : Nat) : ∀ n s rest b, b &&& 0x80 ≠ 0 →
    readLongGo (varintBytes m ++ rest) b n s = .ok (n ||| (m <<< s), rest) := by
  induction m using Nat.strong_induction_on with
  | _ m IH =>
    intro n s rest b hb
    rw [varintBytes]
    by_cases hm : m < 0x80
    · simp only [if_pos hm, List.cons_append, List.nil_append]
      rw [readLongGo.eq_def]
      simp only [if_pos hb]
      rw [readLongGo.eq_def]
      simp [and128_zero_of_lt m hm, and127_of_lt m hm]
    · simp only [if_neg hm, List.cons_append]
      rw [readLongGo.eq_def]
      simp only [if_pos hb]
      rw [or128_and127]
      have hlt : m >>> 7 < m := by
        simp only [Nat.shiftRight_eq_div_pow]
        exact Nat.div_lt_self (by omega) (by norm_num)
      rw [IH (m >>> 7) hlt (n ||| ((m &&& 0x7F) <<< s)) (s + 7) rest _
        (by rw [or128_and128]; norm_num)]
      rw [Nat.or_assoc, shift_merge]

theorem read_long_varint (m : Nat) (rest : Bytes) :
    read_long (varintBytes m ++ rest) = .ok (unZigZag m, rest) := by
  rw [varintBytes]
  by_cases hm : m < 0x80
  · simp only [if_pos hm, List.cons_append, List.nil_append]
    rw [read_long, readLongGo.eq_def]
    simp [and128_zero_of_lt m hm, and127_of_lt m hm]
  · simp only [if_neg hm, List.cons_append]
    rw [read_long]
    rw [or128_and127, readLongGo_varint (m >>> 7) _ 7 rest _
      (by rw [or128_and128]; norm_num)]
    have := shift_merge m 0
    simp only [Nat.shiftLeft_zero, Nat.zero_add] at this
    rw [this]

theorem pyXor_ofNat_zero (a : Nat) : pyXor (Int.ofNat a) (Int.ofNat 0) = Int.ofNat a := by
  simp [pyXor]

theorem zigZag_nonneg (a : Nat) (h : a < 2 ^ 63) :
    zigZag (Int.ofNat a) = Int.ofNat (2 * a) := by
  have hshl : pyShl (Int.ofNat a) 1 = Int.ofNat (2 * a) := by
    simp [pyShl]; omega
  have hshr : pyShr (Int.ofNat a) 63 = Int.ofNat 0 := by
    simp only [pyShr]
    rw [Nat.shiftRight_eq_div_pow]
    rw [Nat.div_eq_of_lt h]
  rw [zigZag, hshl, hshr, pyXor_ofNat_zero]

theorem pyXor_negSucc_negSucc (a b : Nat) :
    pyXor (Int.negSucc a) (Int.negSucc b) = Int.ofNat (a ^^^ b) := by
  simp [pyXor]

theorem zigZag_negSucc (a : Nat) (h : a < 2 ^ 63) :
    zigZag (Int.negSucc a) = Int.ofNat (2 * a + 1) := by
  have hshl : pyShl (Int.negSucc a) 1 = Int.negSucc (2 * a + 1) := by
    simp only [pyShl, Int.negSucc_eq, pow_one]
    omega
  have hshr : pyShr (Int.negSucc a) 63 = Int.negSucc 0 := by
    simp only [pyShr]
    rw [Nat.shiftRight_eq_div_pow]
    rw [Nat.div_eq_of_lt h]
  rw [zigZag, hshl, hshr, pyXor_negSucc_negSucc]
  simp

theorem unZigZag_even (a : Nat) : unZigZag (2 * a) = Int.ofNat a := by
  have h1 : (2 * a) >>> 1 = a := by
    simp [Nat.shiftRight_eq_div_pow]
  have h2 : (2 * a) &&& 1 = 0 := by
    have : (1 : Nat) = 2 ^ 1 - 1 := by norm_num
    rw [this, Nat.and_pow_two_sub_one_eq_mod]
    omega
  rw [unZigZag, h1, h2]
  have hz : (-(Int.ofNat 0)) = Int.ofNat 0 := by simp
  rw [hz]
  exact pyXor_ofNat_zero a

theorem unZigZag_odd (a : Nat) : unZigZag (2 * a + 1) = Int.negSucc a := by
  have h1 : (2 * a + 1) >>> 1 = a := by
    simp [Nat.shiftRight_eq_div_pow]
    omega
  have h2 : (2 * a + 1) &&& 1 = 1 := by
    have : (1 : Nat) = 2 ^ 1 - 1 := by norm_num
    rw [this, Nat.and_pow_two_sub_one_eq_mod]
    omega
  rw [unZigZag, h1, h2]
  have hz : (-(Int.ofNat 1)) = Int.negSucc 0 := by decide
  rw [hz]
  simp [pyXor]

/-- Inverting the zig-zag map on the 64-bit signed range. -/
theorem unZigZag_zigZag (x : Int) (h1 : -(2 ^ 63) ≤ x) (h2 : x ≤ 2 ^ 63 - 1) :
    unZigZag (zigZag x).toNat = x := by
  cases x with
  | ofNat a =>
    have ha : a < 2 ^ 63 := by
      have := h2
      simp only [Int.ofNat_eq_coe] at this
      omega
    rw [zigZag_nonneg a ha]
    exact unZigZag_even a
  | negSucc a =>
    have ha : a < 2 ^ 63 := by
      simp only [Int.negSucc_eq] at h1
      push_cast at h1
      omega
    rw [zigZag_negSucc a ha]
    exact unZigZag_odd a

theorem except_bind_ok {α β ε : Type} (a : α) (f : α → Except ε β) :
    (Except.ok (ε := ε) a >>= f) = f a := rfl

theorem except_bind_err {α β ε : Type} (e : ε) (f : α → Except ε β) :
    (Except.error (α := α) e >>= f) = Except.error e := rfl

theorem and127_eq_mod (n : Nat) : n &&& 0x7F = n % 0x80 := by
  have h : (0x7F : Nat) = 2 ^ 7 - 1 := by norm_num
  rw [h, Nat.and_pow_two_sub_one_eq_mod]

theorem and128_eq (n : Nat) : n &&& 0x80 = n / 0x80 % 2 * 0x80 := by
  apply Nat.eq_of_testBit_eq
  intro i
  have h7 : (0x80 : Nat) = 2 ^ 7 := by norm_num
  rcases Nat.mod_two_eq_zero_or_one (n / 0x80) with h | h <;> rw [h]
  · simp only [Nat.zero_mul, Nat.zero_testBit, h7, Nat.testBit_and, Nat.testBit_two_pow]
    rcases eq_or_ne (7 : Nat) i with rfl | hne
    · rw [Nat.testBit_to_div_mod]
      simp only [decide_eq_true_eq]
      norm_num at h ⊢
      omega
    · simp [hne]
  · simp only [Nat.one_mul, h7, Nat.testBit_and, Nat.testBit_two_pow]
    rcases eq_or_ne (7 : Nat) i with rfl | hne
    · rw [Nat.testBit_to_div_mod]
      simp only [decide_eq_true_eq, Nat.testBit_two_pow_self]
      norm_num at h ⊢
      omega
    · simp [hne, Nat.testBit_two_pow_of_ne hne]

theorem or128_eq_add (m : Nat) (h : m < 0x80) : m ||| 0x80 = m + 0x80 := by
  have h7 : (0x80 : Nat) = 2 ^ 7 := by norm_num
  apply Nat.eq_of_testBit_eq
  intro i
  rw [Nat.testBit_or]
  rcases Nat.lt_trichotomy i 7 with hi | rfl | hi
  · rw [h7, Nat.add_comm, Nat.testBit_two_pow_add_gt hi,
      Nat.testBit_two_pow_of_ne (Nat.ne_of_gt hi)]
    exact (Bool.or_false _).symm ▸ rfl
  · rw [h7, Nat.add_comm, Nat.testBit_two_pow_add_eq, Nat.testBit_two_pow_self]
    have hm : m.testBit 7 = false := Nat.testBit_lt_two_pow (by norm_num at h ⊢; omega)
    rw [hm]
    rfl
  · have hm : m.testBit i = false := Nat.testBit_lt_two_pow (by
      have h8 : (2 : Nat) ^ 8 ≤ 2 ^ i := Nat.pow_le_pow_right (by norm_num) hi
      norm_num at h ⊢
      omega)
    have hsum : m + 0x80 < 2 ^ i := by
      have h8 : (2 : Nat) ^ 8 ≤ 2 ^ i := Nat.pow_le_pow_right (by norm_num) hi
      norm_num at h ⊢
      omega
    rw [Nat.testBit_lt_two_pow hsum, hm, h7,
      Nat.testBit_two_pow_of_ne (Nat.ne_of_lt hi)]
    rfl

theorem varintBytes_small (n : Nat) (h : n < 0x80) : varintBytes n = [n] := by
  rw [varintBytes, if_pos h]

theorem varintBytes_large (n : Nat) (h : 0x80 ≤ n) :
    varintBytes n = (n % 0x80 + 0x80) :: varintBytes (n / 0x80) := by
  rw [varintBytes, if_neg (by omega), and127_eq_mod, or128_eq_add _ (by omega)]
  norm_num [Nat.shiftRight_eq_div_pow]

/-- The zig-zagged value as a natural number, in a form `norm_num` can
evaluate on literals. -/
def zigZagN (x : Int) : Nat :=
  if 0 ≤ x then (2 * x).toNat else (-(2 * x) - 1).toNat

theorem write_long_eval (n : Int) (h1 : -(2 ^ 63) ≤ n) (h2 : n ≤ 2 ^ 63 - 1) :
    write_long n = varintBytes (zigZagN n) := by
  cases n with
  | ofNat a =>
    have ha : a < 2 ^ 63 := by
      have := h2
      simp only [Int.ofNat_eq_coe] at this
      omega
    rw [write_long, zigZag_nonneg a ha, zigZagN]
    have h0 : (0 : Int) ≤ Int.ofNat a := by
      rw [Int.ofNat_eq_coe]
      positivity
    rw [if_pos h0]
    have heq : (2 * Int.ofNat a).toNat = 2 * a := by
      simp only [Int.ofNat_eq_coe]
      omega
    rw [heq]
    rfl
  | negSucc a =>
    have ha : a < 2 ^ 63 := by
      simp only [Int.negSucc_eq] at h1
      push_cast at h1
      omega
    rw [write_long, zigZag_negSucc a ha, zigZagN]
    have h0 : ¬ (0 : Int) ≤ Int.negSucc a := by
      simp only [Int.negSucc_eq]
      omega
    rw [if_neg h0]
    have heq : (-(2 * Int.negSucc a) - 1).toNat = 2 * a + 1 := by
      simp only [Int.negSucc_eq]
      omega
    rw [heq]
    rfl

theorem unZigZag_eq (n : Nat) :
    unZigZag n = if n % 2 = 0 then Int.ofNat (n / 2) else Int.negSucc (n / 2) := by
  by_cases h : n % 2 = 0
  · rw [if_pos h]
    conv_lhs => rw [show n = 2 * (n / 2) by omega]
    exact unZigZag_even (n / 2)
  · rw [if_neg h]
    conv_lhs => rw [show n = 2 * (n / 2) + 1 by omega]
    exact unZigZag_odd (n / 2)

/-- C2: zig-zag round-trip: for every 64-bit signed integer `n`,
`BinaryDecoder.read_long` applied to the bytes produced by
`BinaryEncoder.write_long n` (followed by any further input) returns exactly
`n` and leaves the further input unconsumed. -/
theorem read_long_write_long (n : Int) (rest : Bytes)
    (h1 : -(2 ^ 63) ≤ n) (h2 : n ≤ 2 ^ 63 - 1) :
    read_long (write_long n ++ rest) = .ok (n, rest) := by
  rw [write_long, read_long_varint, unZigZag_zigZag n h1 h2]

/-- Witness for `read_long_write_long` at `n = -1`: the wire encoding is the
single byte `0x01` (scenario S1 of the spec). -/
theorem read_long_write_long_witness :
    (-(2 ^ 63) ≤ (-1 : Int) ∧ (-1 : Int) ≤ 2 ^ 63 - 1) ∧
      read_long (write_long (-1) ++ []) = .ok (-1, []) :=
  ⟨⟨by norm_num, by norm_num⟩, read_long_write_long (-1) [] (by norm_num) (by norm_num)⟩

theorem varintBytes_length_le (k : Nat) :
    ∀ m, m < 2 ^ (7 * (k + 1)) → (varintBytes m).length ≤ k + 1 := by
  induction k with
  | zero =>
    intro m hm
    rw [varintBytes]
    norm_num at hm
    simp [hm]
  | succ k IH =>
    intro m hm
    rw [varintBytes]
    by_cases h : m < 0x80
    · simp [h]
    · simp only [if_neg h, List.length_cons]
      have hle : (varintBytes (m >>> 7)).length ≤ k + 1 := by
        apply IH
        rw [Nat.shiftRight_eq_div_pow]
        rw [Nat.div_lt_iff_lt_mul (show 0 < 2 ^ 7 by norm_num)]
        calc m < 2 ^ (7 * (k + 1 + 1)) := hm
          _ = 2 ^ (7 * (k + 1)) * 2 ^ 7 := by
            rw [show 7 * (k + 1 + 1) = 7 * (k + 1) + 7 by ring, pow_add]
      omega

theorem zigZag_toNat_lt (n : Int) (h1 : -(2 ^ 63) ≤ n) (h2 : n ≤ 2 ^ 63 - 1) :
    (zigZag n).toNat < 2 ^ 64 := by
  cases n with
  | ofNat a =>
    have ha : a < 2 ^ 63 := by
      have := h2
      simp only [Int.ofNat_eq_coe] at this
      omega
    rw [zigZag_nonneg a ha]
    show 2 * a < 2 ^ 64
    omega
  | negSucc a =>
    have ha : a < 2 ^ 63 := by
      simp only [Int.negSucc_eq] at h1
      push_cast at h1
      omega
    rw [zigZag_negSucc a ha]
    show 2 * a + 1 < 2 ^ 64
    omega

/-- C9: varint length bound: for every integer `n` in the signed 64-bit
range, `BinaryEncoder.write_long n` emits at least 1 and at most 10 bytes. -/
theorem write_long_length (n : Int)
    (h1 : -(2 ^ 63) ≤ n) (h2 : n ≤ 2 ^ 63 - 1) :
    1 ≤ (write_long n).length ∧ (write_long n).length ≤ 10 := by
  constructor
  · rw [write_long, varintBytes]
    split <;> simp
  · rw [write_long]
    apply varintBytes_length_le 9
    calc (zigZag n).toNat < 2 ^ 64 := zigZag_toNat_lt n h1 h2
      _ ≤ 2 ^ (7 * (9 + 1)) := by norm_num

/-- Witness for `write_long_length` at `n = -2^63`, the most negative long. -/
theorem write_long_length_witness :
    (-(2 ^ 63) ≤ (-(2 ^ 63) : Int) ∧ (-(2 ^ 63) : Int) ≤ 2 ^ 63 - 1) ∧
      1 ≤ (write_long (-(2 ^ 63))).length ∧ (write_long (-(2 ^ 63))).length ≤ 10 :=
  ⟨⟨by norm_num, by norm_num⟩, write_long_length (-(2 ^ 63)) (by norm_num) (by norm_num)⟩

/-- C5: cross-tag schema matching: for schemas whose type tags differ,
neither being a union or error_union, `__match_schema__` returns true exactly
when the tag pair is one of the six numeric promotions `int->long`,
`int->float`, `int->double`, `long->float`, `long->double`, `float->double`;
in particular every reversed pair returns false. -/
theorem cross_tag_match (W R : Schema)
    (hneq : W.typeName ≠ R.typeName)
    (hW : ¬ isUnionTag W = true) (hR : ¬ isUnionTag R = true) :
    (matchSchemaUncached W R = true ↔
      ((W.typeName = "int" ∧
          (R.typeName = "long" ∨ R.typeName = "float" ∨ R.typeName = "double")) ∨
        (W.typeName = "long" ∧ (R.typeName = "float" ∨ R.typeName = "double")) ∨
        (W.typeName = "float" ∧ R.typeName = "double"))) := by
  rw [matchSchemaUncached]
  simp only [isUnionTag, Bool.or_eq_true, beq_iff_eq, not_or] at hW hR
  simp only [beq_iff_eq, if_neg hneq]
  rw [if_neg (by
    simp only [Bool.or_eq_true, beq_iff_eq]
    push_neg
    exact ⟨⟨hW.1, hR.1⟩, hW.2, hR.2⟩)]
  simp [validSchemaPromotions, List.contains, Prod.ext_iff]
  constructor
  · rintro (h | h | h | h | h | h) <;> simp_all
  · rintro (⟨h1, h2 | h2 | h2⟩ | ⟨h1, h2 | h2⟩ | ⟨h1, h2⟩) <;> simp_all

/-- Witness for `cross_tag_match` at `W = int`, `R = long` (a promotion,
hence a match) — the hypotheses are discharged at concrete schemas. -/
theorem cross_tag_match_witness :
    (Schema.sint.typeName ≠ Schema.slong.typeName ∧
      ¬ isUnionTag .sint = true ∧ ¬ isUnionTag .slong = true) ∧
      (matchSchemaUncached .sint .slong = true ↔
        ((Schema.sint.typeName = "int" ∧
            (Schema.slong.typeName = "long" ∨ Schema.slong.typeName = "float" ∨
              Schema.slong.typeName = "double")) ∨
          (Schema.sint.typeName = "long" ∧
            (Schema.slong.typeName = "float" ∨ Schema.slong.typeName = "double")) ∨
          (Schema.sint.typeName = "float" ∧ Schema.slong.typeName = "double"))) :=
  ⟨⟨by simp [Schema.typeName], by simp [isUnionTag, Schema.typeName],
      by simp [isUnionTag, Schema.typeName]⟩,
    cross_tag_match .sint .slong (by simp [Schema.typeName])
      (by simp [isUnionTag, Schema.typeName]) (by simp [isUnionTag, Schema.typeName])⟩

mutual
theorem json_beq_iff (x y : Json) : Json.beqJ x y = true ↔ x = y := by
  cases x <;> cases y
  case arr.arr xs ys =>
    rw [Json.beqJ]
    rw [jsonList_beq_iff xs ys]
    simp
  case obj.obj xs ys =>
    rw [Json.beqJ]
    rw [jsonObj_beq_iff xs ys]
    simp
  all_goals simp [Json.beqJ]
termination_by (sizeOf x, 0)

theorem jsonList_beq_iff (xs ys : List Json) : Json.beqJList xs ys = true ↔ xs = ys := by
  match xs, ys with
  | [], [] => simp [Json.beqJList]
  | [], _ :: _ => simp [Json.beqJList]
  | _ :: _, [] => simp [Json.beqJList]
  | x :: xs, y :: ys =>
    rw [Json.beqJList]
    simp [Bool.and_eq_true, json_beq_iff x y, jsonList_beq_iff xs ys]
termination_by (sizeOf xs, 1)

theorem jsonObj_beq_iff (xs ys : List (String × Json)) :
    Json.beqJObj xs ys = true ↔ xs = ys := by
  match xs, ys with
  | [], [] => simp [Json.beqJObj]
  | [], _ :: _ => simp [Json.beqJObj]
  | _ :: _, [] => simp [Json.beqJObj]
  | (k, x) :: xs, (k2, y) :: ys =>
    rw [Json.beqJObj]
    simp [Bool.and_eq_true, json_beq_iff x y, jsonObj_beq_iff xs ys, Prod.ext_iff,
      and_assoc]
termination_by (sizeOf xs, 1)
end

mutual
/-- Structural schema equality coincides with propositional equality: the
cache keyed by schema pairs is keyed exactly. -/
theorem schema_beq_iff (a b : Schema) : Schema.beq a b = true ↔ a = b := by
  cases a <;> cases b
  case sarray.sarray x y =>
    rw [Schema.beq]
    rw [schema_beq_iff x y]
    simp
  case smap.smap x y =>
    rw [Schema.beq]
    rw [schema_beq_iff x y]
    simp
  case sunion.sunion xs ys =>
    rw [Schema.beq]
    rw [schemaList_beq_iff xs ys]
    simp
  case serrorUnion.serrorUnion xs ys =>
    rw [Schema.beq]
    rw [schemaList_beq_iff xs ys]
    simp
  case srecord.srecord n fs m gs =>
    rw [Schema.beq]
    simp [Bool.and_eq_true, schemaFields_beq_iff fs gs]
  case serror.serror n fs m gs =>
    rw [Schema.beq]
    simp [Bool.and_eq_true, schemaFields_beq_iff fs gs]
  case srequest.srequest fs gs =>
    rw [Schema.beq]
    rw [schemaFields_beq_iff fs gs]
    simp
  all_goals simp [Schema.beq]
termination_by (sizeOf a, 0)

theorem schemaList_beq_iff (as bs : List Schema) : Schema.beqList as bs = true ↔ as = bs := by
  match as, bs with
  | [], [] => simp [Schema.beqList]
  | [], _ :: _ => simp [Schema.beqList]
  | _ :: _, [] => simp [Schema.beqList]
  | a :: as, b :: bs =>
    rw [Schema.beqList]
    simp [Bool.and_eq_true, schema_beq_iff a b, schemaList_beq_iff as bs]
termination_by (sizeOf as, 1)

theorem schemaFields_beq_iff (fs gs : List Field) : Schema.beqFields fs gs = true ↔ fs = gs := by
  match fs, gs with
  | [], [] => simp [Schema.beqFields]
  | [], _ :: _ => simp [Schema.beqFields]
  | _ :: _, [] => simp [Schema.beqFields]
  | .mk n t h d :: fs, .mk m u h2 d2 :: gs =>
    rw [Schema.beqFields]
    simp [Bool.and_eq_true, schema_beq_iff t u, schemaFields_beq_iff fs gs,
      json_beq_iff d d2, and_assoc]
termination_by (sizeOf fs, 1)
end

theorem schema_beq_refl (a : Schema) : Schema.beq a a = true := (schema_beq_iff a a).2 rfl

theorem sameTypeMatch_refl (W : Schema) : sameTypeMatch W W = true := by
  cases W <;> simp [sameTypeMatch]

theorem matchSchemaUncached_refl (W : Schema) : matchSchemaUncached W W = true := by
  rw [matchSchemaUncached]
  simp [sameTypeMatch_refl]

/-- The identity short-circuit agrees with the uncached predicate, so the
pure `match_schema` is the uncached predicate everywhere. -/
theorem match_schema_eq_uncached (W R : Schema) :
    match_schema W R = matchSchemaUncached W R := by
  rw [match_schema]
  by_cases h : Schema.beq W R = true
  · rw [h]
    rw [(schema_beq_iff W R).1 h]
    simp [matchSchemaUncached_refl]
  · simp [h]

theorem cacheLookup_valid (c : MatchCache) (W R : Schema) (v : Bool)
    (hc : validCache c = true) (h : cacheLookup c W R = .some v) :
    v = matchSchemaUncached W R := by
  induction c with
  | nil => simp [cacheLookup] at h
  | cons e rest ih =>
    obtain ⟨⟨w, r⟩, v'⟩ := e
    rw [validCache, List.all_cons] at hc
    simp only [Bool.and_eq_true, beq_iff_eq] at hc
    rw [cacheLookup] at h
    by_cases hk : (Schema.beq w W && Schema.beq r R) = true
    · rw [if_pos hk] at h
      simp only [Bool.and_eq_true] at hk
      obtain ⟨hw, hr⟩ := hk
      rw [(schema_beq_iff w W).1 hw, (schema_beq_iff r R).1 hr] at hc
      cases h
      exact hc.1
    · rw [if_neg hk] at h
      exact ih (by rw [validCache]; exact hc.2) h

/-- C8: match-cache transparency: on every reachable cache state the cached
`match_schema` returns exactly the boolean the uncached predicate computes
(identical schemas always match true, which the uncached predicate also
returns), the resulting cache state is again reachable, and clearing the
cache (the empty state) never changes the returned boolean. -/
theorem match_schema_cache_transparent (c : MatchCache) (W R : Schema)
    (hc : validCache c = true) :
    (match_schema_with_cache c W R).1 = matchSchemaUncached W R ∧
      validCache (match_schema_with_cache c W R).2 = true ∧
      (match_schema_with_cache [] W R).1 = (match_schema_with_cache c W R).1 := by
  have hempty : ∀ W R : Schema, (match_schema_with_cache [] W R).1 = matchSchemaUncached W R := by
    intro W R
    rw [match_schema_with_cache]
    by_cases h : Schema.beq W R = true
    · rw [if_pos h, (schema_beq_iff W R).1 h]
      simp [matchSchemaUncached_refl]
    · rw [if_neg h]
      simp [cacheLookup]
  refine ⟨?_, ?_, ?_⟩
  · rw [match_schema_with_cache]
    by_cases h : Schema.beq W R = true
    · rw [if_pos h, (schema_beq_iff W R).1 h]
      simp [matchSchemaUncached_refl]
    · rw [if_neg h]
      cases hl : cacheLookup c W R with
      | some v => simpa using cacheLookup_valid c W R v hc hl
      | none => simp
  · rw [match_schema_with_cache]
    by_cases h : Schema.beq W R = true
    · rw [if_pos h]
      exact hc
    · rw [if_neg h]
      cases hl : cacheLookup c W R with
      | some v => exact hc
      | none =>
        simp only
        by_cases hlen : c.length > MATCH_SCHEMA_CACHE_MAX_LENGTH
        · rw [if_pos hlen]
          simp [validCache]
        · rw [if_neg hlen]
          rw [validCache, List.all_cons]
          simp only [Bool.and_eq_true, beq_iff_eq]
          exact ⟨trivial, by rw [validCache] at hc; exact hc⟩
  · rw [hempty]
    rw [match_schema_with_cache]
    by_cases h : Schema.beq W R = true
    · rw [if_pos h, (schema_beq_iff W R).1 h]
      simp [matchSchemaUncached_refl]
    · rw [if_neg h]
      cases hl : cacheLookup c W R with
      | some v => simpa using (cacheLookup_valid c W R v hc hl).symm
      | none => simp

/-- Witness for `match_schema_cache_transparent` on a concrete one-entry
cache and the pair `(string, int)` (no match). -/
theorem match_schema_cache_transparent_witness :
    validCache [((Schema.sint, Schema.slong), true)] = true ∧
      ((match_schema_with_cache [((Schema.sint, Schema.slong), true)] .sstring .sint).1 =
        matchSchemaUncached .sstring .sint ∧
      validCache (match_schema_with_cache [((Schema.sint, Schema.slong), true)] .sstring .sint).2 = true ∧
      (match_schema_with_cache [] .sstring .sint).1 =
        (match_schema_with_cache [((Schema.sint, Schema.slong), true)] .sstring .sint).1) :=
  ⟨by simp [validCache, matchSchemaUncached, sameTypeMatch, Schema.typeName,
      validSchemaPromotions, List.contains],
    match_schema_cache_transparent [((Schema.sint, Schema.slong), true)] .sstring .sint
      (by simp [validCache, matchSchemaUncached, sameTypeMatch, Schema.typeName,
        validSchemaPromotions, List.contains])⟩

theorem writeUnionGo_none (W : Schema) (d : Datum) :
    ∀ (ss : List Schema) (i : Nat), (∀ s ∈ ss, validate s d = false) →
      writeUnionGo W i ss d = .error (.avroType W d) := by
  intro ss
  induction ss with
  | nil => intro i _; rw [writeUnionGo]
  | cons s rest ih =>
    intro i h
    rw [writeUnionGo]
    rw [if_neg (by rw [h s (by simp)]; simp)]
    exact ih (i + 1) (fun x hx => h x (by simp [hx]))

theorem writeUnionGo_first (W : Schema) (d : Datum) (B : Schema) (suf : List Schema)
    (enc : Bytes) (hB : validate B d = true) (henc : write_data B d = .ok enc) :
    ∀ (pre : List Schema) (i : Nat), (∀ s ∈ pre, validate s d = false) →
      writeUnionGo W i (pre ++ B :: suf) d =
        .ok (write_long (Int.ofNat (i + pre.length)) ++ enc) := by
  intro pre
  induction pre with
  | nil =>
    intro i _
    rw [List.nil_append, writeUnionGo, if_pos hB, henc]
    simp [except_bind_ok]
  | cons s rest ih =>
    intro i h
    rw [List.cons_append, writeUnionGo]
    rw [if_neg (by rw [h s (by simp)]; simp)]
    rw [ih (i + 1) (fun x hx => h x (by simp [hx]))]
    have harith : i + 1 + rest.length = i + (s :: rest).length := by
      simp
      omega
    rw [harith]

/-- C4: union write selection: `write_union` on a `union` or `error_union`
schema searches the branches in order; with no validating branch it fails
with `AvroTypeException(writers_schema, datum)`, and with `B` the first
validating branch (everything before `B` failing `validate`) the wire
output is `write_long` of `B`'s index — the zig-zag varint of the index —
followed by the encoding of the datum under `B`. -/
theorem write_union_spec (U : Schema) (ss : List Schema) (d : Datum)
    (hU : U = .sunion ss ∨ U = .serrorUnion ss) :
    ((∀ s ∈ ss, validate s d = false) → write_union U d = .error (.avroType U d)) ∧
      (∀ (pre : List Schema) (B : Schema) (suf : List Schema) (enc : Bytes),
        ss = pre ++ B :: suf → (∀ s ∈ pre, validate s d = false) →
        validate B d = true → write_data B d = .ok enc →
        write_union U d = .ok (write_long (Int.ofNat pre.length) ++ enc)) := by
  constructor
  · intro h
    rcases hU with rfl | rfl <;>
      (rw [write_union]; exact writeUnionGo_none _ d ss 0 h)
  · intro pre B suf enc hss hpre hB henc
    rcases hU with rfl | rfl <;>
      (rw [write_union, hss, writeUnionGo_first _ d B suf enc hB henc pre 0 hpre]
       simp)

/-- Witness for `write_union_spec`: the spec scenario S4, schema
`union[null, string]` and datum `"hi"`, selecting branch 1; the wire output
is `0x02 0x04 0x68 0x69`. -/
theorem write_union_spec_witness :
    (( Schema.sunion [.snull, .sstring] = Schema.sunion [.snull, .sstring] ∨
       Schema.sunion [.snull, .sstring] = Schema.serrorUnion [.snull, .sstring]) ∧
      [Schema.snull, Schema.sstring] = [Schema.snull] ++ Schema.sstring :: [] ∧
      (∀ s ∈ [Schema.snull], validate s (.string "hi") = false) ∧
      validate .sstring (.string "hi") = true ∧
      write_data .sstring (.string "hi") = .ok [0x04, 0x68, 0x69]) ∧
      write_union (.sunion [.snull, .sstring]) (.string "hi") =
        .ok (write_long (Int.ofNat [Schema.snull].length) ++ [0x04, 0x68, 0x69]) :=
  ⟨⟨Or.inl rfl, rfl, by simp [validate], by simp [validate],
      by simp [write_data, writeDatum, write_utf8, utf8Encode, utf8EncodeChar, write_bytes,
        write_long_eval, zigZagN, varintBytes_small, String.data]⟩,
    (write_union_spec (.sunion [.snull, .sstring]) [.snull, .sstring] (.string "hi")
        (Or.inl rfl)).2 [.snull] .sstring [] [0x04, 0x68, 0x69] rfl
      (by simp [validate]) (by simp [validate])
      (by simp [write_data, writeDatum, write_utf8, utf8Encode, utf8EncodeChar, write_bytes,
        write_long_eval, zigZagN, varintBytes_small, String.data])⟩

theorem write_long_zero : write_long 0 = [0] := by
  rw [write_long_eval 0 (by norm_num) (by norm_num)]
  rw [show zigZagN 0 = 0 by rw [zigZagN]; simp]
  exact varintBytes_small 0 (by norm_num)

theorem writeItems_forall2 (S : Schema) :
    ∀ (xs : List Datum) (encs : List Bytes),
      List.Forall₂ (fun d e => write_data S d = .ok e) xs encs →
      writeItems S xs = .ok encs.flatten := by
  intro xs encs h
  induction h with
  | nil => rw [writeItems]; rfl
  | cons hde hrest ih =>
    rw [writeItems, hde, ih]
    simp [except_bind_ok, List.flatten]

/-- C6: empty-array encoding: `write_array` (the array case of `write_data`)
emits exactly the single terminating zero byte `0x00` for an empty
sequence; for a non-empty sequence of length `L` it emits `write_long L`
(the zig-zag varint of `L`), each item's encoding in order, then the
terminating `0x00`. -/
theorem write_array_framing (S : Schema) :
    (write_array (.sarray S) (.list []) = .ok [0x00]) ∧
      (∀ (xs : List Datum) (encs : List Bytes), xs ≠ [] →
        List.Forall₂ (fun d e => write_data S d = .ok e) xs encs →
        write_array (.sarray S) (.list xs) =
          .ok (write_long (Int.ofNat xs.length) ++ encs.flatten ++ [0x00])) := by
  constructor
  · rw [write_array]
    simp [write_long_zero]
  · intro xs encs hne h
    rw [write_array]
    have hlen : xs.length > 0 := List.length_pos.2 hne
    rw [if_pos hlen, writeItems_forall2 S xs encs h]
    simp [except_bind_ok, write_long_zero]

/-- Witness for `write_array_framing`: scenario S3, `array<int>` with
`[1, 2]`, whose encoding is `0x04 0x02 0x04 0x00` (and the empty array
conjunct, a closed equation, comes along). -/
theorem write_array_framing_witness :
    (([Datum.int 1, Datum.int 2] ≠ ([] : List Datum)) ∧
      List.Forall₂ (fun d e => write_data Schema.sint d = .ok e)
        [Datum.int 1, Datum.int 2] [[0x02], [0x04]]) ∧
      write_array (.sarray .sint) (.list [.int 1, .int 2]) =
        .ok (write_long (Int.ofNat ([Datum.int 1, Datum.int 2]).length) ++
          ([[0x02], [0x04]] : List Bytes).flatten ++ [0x00]) :=
  ⟨⟨by simp,
      by
        refine List.Forall₂.cons ?_ (List.Forall₂.cons ?_ List.Forall₂.nil) <;>
          simp [write_data, writeDatum, intOfDatum, write_long_eval, zigZagN,
            varintBytes_small, except_bind_ok]⟩,
    (write_array_framing .sint).2 [.int 1, .int 2] [[0x02], [0x04]] (by simp)
      (by
        refine List.Forall₂.cons ?_ (List.Forall₂.cons ?_ List.Forall₂.nil) <;>
          simp [write_data, writeDatum, intOfDatum, write_long_eval, zigZagN,
            varintBytes_small, except_bind_ok])⟩

/-- C7: evaluating `skip_union` at a concrete out-of-range branch index
(wire byte `0x02`, branch index 1 of a one-branch union): the source reaches
`raise SchemaResolutionException(fail_msg, writers_schema)`, but
`SchemaResolutionException.__init__` runs `json.loads(str(readers_schema))`
with the defaulted `readers_schema = None` before its guards, so
`json.loads("None")` raises `ValueError` first — the error that escapes the
decoder carries neither the writer\'s nor the reader\'s schema, contradicting
the specified behavior that schema-resolution failures while skipping carry
both schemas. -/
theorem skip_union_value_error :
    skip_union 5 (.sunion [.snull]) [0x02] = .error .valueError := by
  simp [skip_union, read_long, readLongGo, unZigZag_eq, and127_eq_mod, and128_eq,
    pyListIdx, Schema.schemas, except_bind_ok, Int.negSucc_eq]

theorem pyListIdx_neg {α : Type} (xs : List α) (i : Int)
    (h1 : i < 0) (h2 : 0 ≤ i + xs.length) :
    pyListIdx xs i = pyListIdx xs (i + xs.length) := by
  rw [pyListIdx, pyListIdx, if_neg (by omega), if_pos h2, if_pos (by omega)]

/-- C10 (amended): a decoded enum or union-branch index `i` with
`-n ≤ i < 0` passes the range checks and Python list subscription selects
element `n + i`: decoding proceeds exactly as if the wire index had been
`n + i` (for example a wire index of `-1` decodes using the last symbol or
branch rather than failing the index check; later resolution steps behave
as they would for index `n + i`). -/
theorem negative_wire_index_wraps (W R : Schema) (i : Int) (rest : Bytes) (fuel : Nat) :
    (-(W.symbols.length : Int) ≤ i → i < 0 → (W.symbols.length : Int) ≤ 2 ^ 63 →
      read_enum W R (write_long i ++ rest) =
        read_enum W R (write_long (i + W.symbols.length) ++ rest)) ∧
      (-(W.schemas.length : Int) ≤ i → i < 0 → (W.schemas.length : Int) ≤ 2 ^ 63 →
        read_union (fuel + 1) W R (write_long i ++ rest) =
          read_union (fuel + 1) W R (write_long (i + W.schemas.length) ++ rest)) := by
  constructor
  · intro h1 h2 h3
    rw [read_enum, read_enum, read_int, read_int,
      read_long_write_long i rest (by omega) (by omega),
      read_long_write_long (i + W.symbols.length) rest (by omega) (by omega)]
    simp only [except_bind_ok]
    rw [if_neg (by omega), if_neg (by omega), pyListIdx_neg W.symbols i h2 (by omega)]
  · intro h1 h2 h3
    rw [read_union, read_union,
      read_long_write_long i rest (by omega) (by omega),
      read_long_write_long (i + W.schemas.length) rest (by omega) (by omega)]
    simp only [except_bind_ok]
    rw [pyListIdx_neg W.schemas i h2 (by omega)]
    have hlt : (i + (W.schemas.length : Int)).toNat < W.schemas.length := by omega
    rw [pyListIdx, if_pos (by omega), List.getElem?_eq_getElem hlt]

/-- Witness for `negative_wire_index_wraps` at a two-symbol enum and wire
index `-1` (wire byte `0x01`). -/
theorem negative_wire_index_wraps_witness :
    (-((Schema.senum "E" ["A", "B"]).symbols.length : Int) ≤ -1 ∧ (-1 : Int) < 0 ∧
      ((Schema.senum "E" ["A", "B"]).symbols.length : Int) ≤ 2 ^ 63) ∧
      read_enum (.senum "E" ["A", "B"]) (.senum "E" ["A", "B"]) (write_long (-1) ++ []) =
        read_enum (.senum "E" ["A", "B"]) (.senum "E" ["A", "B"])
          (write_long (-1 + (Schema.senum "E" ["A", "B"]).symbols.length) ++ []) :=
  ⟨⟨by simp [Schema.symbols], by norm_num, by simp [Schema.symbols]⟩,
    (negative_wire_index_wraps (.senum "E" ["A", "B"]) (.senum "E" ["A", "B"]) (-1) [] 0).1
      (by simp [Schema.symbols]) (by norm_num) (by simp [Schema.symbols])⟩

/-- Counterexample to C10 as stated: at the writer enum `["A", "B"]` and
reader enum `["A"]` (same fullname, so the schemas match), the in-range
negative wire index `-1` (byte `0x01`, `n = 2`, `-n ≤ -1 < 0`) makes
`read_enum` raise a `SchemaResolutionException`: the claim that no error is
raised is false — the index check passes but symbol resolution fails. -/
theorem negative_wire_index_error :
    read_enum (.senum "E" ["A", "B"]) (.senum "E" ["A"]) [0x01]
      = .error (.schemaResolution "Symbol B not present in Reader\'s Schema"
          (.some (.senum "E" ["A", "B"])) (.some (.senum "E" ["A"]))) := by
  simp [read_enum, read_int, read_long, readLongGo, unZigZag_eq, and127_eq_mod, and128_eq,
    pyListIdx, Schema.symbols, except_bind_ok, Int.negSucc_eq]

theorem lookup_append_left {β : Type} (acc extra : List (String × β)) (k : String) (v : β)
    (h : acc.lookup k = some v) : (acc ++ extra).lookup k = some v := by
  induction acc with
  | nil => simp [List.lookup] at h
  | cons e rest ih =>
    obtain ⟨k2, v2⟩ := e
    cases hk : (k == k2)
    · simp only [List.cons_append, List.lookup, hk] at h ⊢
      exact ih h
    · simp only [List.cons_append, List.lookup, hk] at h ⊢
      exact h

theorem lookup_append_right {β : Type} (acc extra : List (String × β)) (k : String)
    (h : acc.lookup k = none) : (acc ++ extra).lookup k = extra.lookup k := by
  induction acc with
  | nil => simp
  | cons e rest ih =>
    obtain ⟨k2, v2⟩ := e
    cases hk : (k == k2)
    · simp only [List.cons_append, List.lookup, hk] at h ⊢
      exact ih h
    · simp only [List.cons_append, List.lookup, hk] at h
      cases h

theorem fillDefaults_extends (W R : Schema) :
    ∀ (rfs : List Field) (acc out : List (String × Datum)),
      fillDefaults W R rfs acc = .ok out → ∃ extra, out = acc ++ extra := by
  intro rfs
  induction rfs with
  | nil =>
    intro acc out h
    rw [fillDefaults] at h
    cases h
    exact ⟨[], by simp⟩
  | cons g rest ih =>
    intro acc out h
    rw [fillDefaults] at h
    by_cases hw : W.fields.any (fun f => f.name == g.name) = true
    · rw [if_pos hw] at h
      exact ih acc out h
    · rw [if_neg hw] at h
      by_cases hd : g.has_default = true
      · rw [if_pos hd] at h
        cases hv : read_default_value g.type g.default with
        | error e => rw [hv] at h; simp [except_bind_err] at h
        | ok v =>
          rw [hv, except_bind_ok] at h
          obtain ⟨extra, hx⟩ := ih _ out h
          exact ⟨(g.name, v) :: extra, by simp [hx]⟩
      · rw [if_neg hd] at h
        simp at h

theorem fieldLookup_isSome (rfs : List Field) (k : String) :
    (fieldLookup rfs k).isSome = rfs.any (fun f => f.name == k) := by
  induction rfs with
  | nil => simp [fieldLookup]
  | cons g rest ih =>
    rw [fieldLookup]
    by_cases hk : g.name == k
    · simp [hk]
    · simp only [List.any_cons, hk, if_neg hk, Bool.false_or]
      exact ih

theorem readFieldsRes_keys :
    ∀ (wfs : List Field) (fuel : Nat) (rfs : List Field) (input : Bytes)
      (acc kvs : List (String × Datum)) (rest : Bytes),
      readFieldsRes fuel wfs rfs input acc = .ok (kvs, rest) →
      kvs.map Prod.fst = acc.map Prod.fst ++
        (wfs.filter (fun f => (fieldLookup rfs f.name).isSome)).map Field.name := by
  intro wfs
  induction wfs with
  | nil =>
    intro fuel rfs input acc kvs rest h
    cases fuel with
    | zero => rw [readFieldsRes] at h; cases h
    | succ fuel =>
      rw [readFieldsRes] at h
      cases h
      simp
  | cons f wrest ih =>
    intro fuel rfs input acc kvs rest h
    cases fuel with
    | zero => rw [readFieldsRes] at h; cases h
    | succ fuel =>
      rw [readFieldsRes] at h
      cases hl : fieldLookup rfs f.name with
      | some rf =>
        rw [hl] at h
        dsimp only at h
        cases hr : read_data fuel f.type rf.type input with
        | error e => rw [hr] at h; simp [except_bind_err] at h
        | ok pr =>
          rw [hr, except_bind_ok] at h
          have := ih fuel rfs pr.2 (acc ++ [(f.name, pr.1)]) kvs rest h
          rw [this]
          simp [List.filter_cons, hl]
      | none =>
        rw [hl] at h
        dsimp only at h
        cases hs : skip_data fuel f.type input with
        | error e => rw [hs] at h; simp [except_bind_err] at h
        | ok rest2 =>
          rw [hs, except_bind_ok] at h
          have := ih fuel rfs rest2 acc kvs rest h
          rw [this]
          simp [List.filter_cons, hl]

theorem lookup_eq_none_of_not_mem {β : Type} (kvs : List (String × β)) (k : String)
    (h : k ∉ kvs.map Prod.fst) : kvs.lookup k = none := by
  induction kvs with
  | nil => rfl
  | cons e rest ih =>
    obtain ⟨k2, v2⟩ := e
    simp only [List.map_cons, List.mem_cons, not_or] at h
    have hk : (k == k2) = false := beq_eq_false_iff_ne.2 h.1
    simp only [List.lookup, hk]
    exact ih h.2

/-- Phase one binds strictly fewer keys than the reader has fields whenever
some reader field is absent from the writer (field names being unique within
each record), so `read_record`'s cardinality guard fires. -/
theorem phase1_short (wfs rfs : List Field) (rf : Field)
    (kvs : List (String × Datum))
    (hmem : rf ∈ rfs)
    (hnotW : wfs.any (fun f => f.name == rf.name) = false)
    (hwnodup : (wfs.map Field.name).Nodup)
    (hkeys : kvs.map Prod.fst =
      (wfs.filter (fun f => (fieldLookup rfs f.name).isSome)).map Field.name) :
    kvs.length < (fieldsDict rfs).length := by
  have hnod : ((wfs.filter (fun f => (fieldLookup rfs f.name).isSome)).map
      Field.name).Nodup :=
    List.Nodup.sublist ((List.filter_sublist wfs).map Field.name) hwnodup
  have hsub : ((wfs.filter (fun f => (fieldLookup rfs f.name).isSome)).map
      Field.name) ⊆ (rfs.map Field.name).erase rf.name := by
    intro k hk
    simp only [List.mem_map] at hk
    obtain ⟨f, hf, rfl⟩ := hk
    have hfw := List.mem_of_mem_filter hf
    have hfsome : (fieldLookup rfs f.name).isSome = true := (List.mem_filter.1 hf).2
    have hne : f.name ≠ rf.name := by
      intro he
      have hany : wfs.any (fun g => g.name == rf.name) = true :=
        List.any_eq_true.2 ⟨f, hfw, by simp [he]⟩
      rw [hnotW] at hany
      cases hany
    rw [List.mem_erase_of_ne hne]
    rw [fieldLookup_isSome, List.any_eq_true] at hfsome
    obtain ⟨g, hg, hgk⟩ := hfsome
    simp only [beq_iff_eq] at hgk
    exact List.mem_map.2 ⟨g, hg, hgk⟩
  have hsp := List.subperm_of_subset hnod hsub
  have hlen := List.Subperm.length_le hsp
  have hermem : rf.name ∈ rfs.map Field.name := List.mem_map.2 ⟨rf, hmem, rfl⟩
  have her := List.length_erase_add_one hermem
  have hkv : kvs.length =
      ((wfs.filter (fun f => (fieldLookup rfs f.name).isSome)).map
        Field.name).length := by
    rw [← hkeys, List.length_map]
  have hrl : (rfs.map Field.name).length = rfs.length := by simp
  rw [fieldsDict, List.length_map]
  omega

/-- Processing a reader field absent from the writer and carrying a default
binds it in `fillDefaults`'s output to its reified default value. -/
theorem fillDefaults_binds (W R : Schema) (rf : Field)
    (hnotW : W.fields.any (fun f => f.name == rf.name) = false)
    (hdef : rf.has_default = true) :
    ∀ (rfs : List Field) (acc out : List (String × Datum)),
      rf ∈ rfs →
      (∀ g ∈ rfs, g.name = rf.name → g = rf) →
      acc.lookup rf.name = none →
      fillDefaults W R rfs acc = .ok out →
      ∃ v, read_default_value rf.type rf.default = .ok v ∧
        out.lookup rf.name = some v := by
  intro rfs
  induction rfs with
  | nil =>
    intro acc out hmem
    simp at hmem
  | cons g rest ih =>
    intro acc out hmem hid hacc hfd
    rw [fillDefaults] at hfd
    by_cases hgname : g.name = rf.name
    · have hg : g = rf := hid g (List.mem_cons_self g rest) hgname
      rw [hg] at hfd
      rw [if_neg (by simp [hnotW])] at hfd
      rw [if_pos hdef] at hfd
      cases hv : read_default_value rf.type rf.default with
      | error e => rw [hv] at hfd; simp [except_bind_err] at hfd
      | ok v =>
        rw [hv, except_bind_ok] at hfd
        obtain ⟨extra, hx⟩ := fillDefaults_extends W R rest _ out hfd
        refine ⟨v, rfl, ?_⟩
        rw [hx, List.append_assoc, lookup_append_right acc _ rf.name hacc]
        simp [List.lookup]
    · have hmem2 : rf ∈ rest := by
        rcases List.mem_cons.1 hmem with h | h
        · exact absurd (by rw [h]) hgname
        · exact h
      have hid2 : ∀ g2 ∈ rest, g2.name = rf.name → g2 = rf :=
        fun g2 hg2 => hid g2 (List.mem_cons_of_mem _ hg2)
      by_cases hw : W.fields.any (fun f => f.name == g.name) = true
      · rw [if_pos hw] at hfd
        exact ih acc out hmem2 hid2 hacc hfd
      · rw [if_neg hw] at hfd
        by_cases hd : g.has_default = true
        · rw [if_pos hd] at hfd
          cases hv : read_default_value g.type g.default with
          | error e => rw [hv] at hfd; simp [except_bind_err] at hfd
          | ok u =>
            rw [hv, except_bind_ok] at hfd
            have hacc2 : (acc ++ [(g.name, u)]).lookup rf.name = none := by
              rw [lookup_append_right acc _ rf.name hacc]
              have hne : (rf.name == g.name) = false :=
                beq_eq_false_iff_ne.2 (fun he => hgname he.symm)
              simp [List.lookup, hne]
            exact ih _ out hmem2 hid2 hacc2 hfd
        · rw [if_neg hd] at hfd
          simp at hfd

/-- A reader field absent from the writer and lacking a default makes
`fillDefaults` fail `SchemaResolution` (provided the earlier reader fields
do not fail first for another reason). -/
theorem fillDefaults_missing (W R : Schema) (rf : Field)
    (hnotW : W.fields.any (fun f => f.name == rf.name) = false)
    (hnodef : rf.has_default = false) :
    ∀ (rfs : List Field) (acc : List (String × Datum)),
      rf ∈ rfs →
      (∀ g ∈ rfs, g.has_default = true →
        ∃ u, read_default_value g.type g.default = .ok u) →
      ∃ fname, fillDefaults W R rfs acc =
        .error (.schemaResolution ("No default value for field " ++ fname)
          (.some W) (.some R)) := by
  intro rfs
  induction rfs with
  | nil =>
    intro acc hmem
    simp at hmem
  | cons g rest ih =>
    intro acc hmem hok
    rw [fillDefaults]
    by_cases hw : W.fields.any (fun f => f.name == g.name) = true
    · rw [if_pos hw]
      have hmem2 : rf ∈ rest := by
        rcases List.mem_cons.1 hmem with h | h
        · rw [← h] at hw
          rw [hnotW] at hw
          cases hw
        · exact h
      exact ih acc hmem2 (fun g2 hg2 => hok g2 (List.mem_cons_of_mem _ hg2))
    · rw [if_neg hw]
      by_cases hd : g.has_default = true
      · rw [if_pos hd]
        obtain ⟨u, hu⟩ := hok g (List.mem_cons_self g rest) hd
        rw [hu, except_bind_ok]
        have hmem2 : rf ∈ rest := by
          rcases List.mem_cons.1 hmem with h | h
          · rw [h, hd] at hnodef
            cases hnodef
          · exact h
        exact ih _ hmem2 (fun g2 hg2 => hok g2 (List.mem_cons_of_mem _ hg2))
      · rw [if_neg hd]
        exact ⟨g.name, rfl⟩

/-- **C3**: when `read_record` resolves a writer record against a distinct
reader record whose field `rf` is absent from the writer (field names unique
in both records), then: if `rf` has a default, any successful decode binds
`rf.name` in the result dict to `read_default_value rf.type rf.default`; if
`rf` has no default, the decode fails `SchemaResolution` with the
"No default value for field" message carrying both schemas. -/
theorem read_record_defaults
    (wn rn : String) (wfs rfs : List Field) (rf : Field)
    (fuel : Nat) (input rest : Bytes) (kvs : List (String × Datum))
    (hbeq : Schema.beq (.srecord rn rfs) (.srecord wn wfs) = false)
    (hphase1 : readFieldsRes fuel wfs rfs input [] = .ok (kvs, rest))
    (hmem : rf ∈ rfs)
    (hnotW : wfs.any (fun f => f.name == rf.name) = false)
    (hwnodup : (wfs.map Field.name).Nodup)
    (hrnodup : (rfs.map Field.name).Nodup) :
    (rf.has_default = true →
      ∀ d rest2,
        read_record (fuel + 1) (.srecord wn wfs) (.srecord rn rfs) input
          = .ok (d, rest2) →
        ∃ v out, read_default_value rf.type rf.default = .ok v ∧
          d = .dict out ∧ out.lookup rf.name = some v) ∧
    (rf.has_default = false →
      (∀ g ∈ rfs, g.has_default = true →
        ∃ u, read_default_value g.type g.default = .ok u) →
      ∃ fname,
        read_record (fuel + 1) (.srecord wn wfs) (.srecord rn rfs) input
          = .error (.schemaResolution ("No default value for field " ++ fname)
            (.some (.srecord wn wfs)) (.some (.srecord rn rfs)))) := by
  have hkeys := readFieldsRes_keys wfs fuel rfs input [] kvs rest hphase1
  simp only [List.map_nil, List.nil_append] at hkeys
  have hguard : kvs.length < (fieldsDict rfs).length :=
    phase1_short wfs rfs rf kvs hmem hnotW hwnodup hkeys
  have hid : ∀ g ∈ rfs, g.name = rf.name → g = rf :=
    fun g hg he => List.inj_on_of_nodup_map hrnodup hg hmem he
  constructor
  · intro hdef d rest2 hrec
    rw [read_record] at hrec
    rw [if_neg (by simp [hbeq])] at hrec
    simp only [Schema.fields] at hrec
    rw [hphase1, except_bind_ok] at hrec
    dsimp only at hrec
    rw [if_pos hguard] at hrec
    cases hfd : fillDefaults (.srecord wn wfs) (.srecord rn rfs) rfs kvs with
    | error e =>
      rw [hfd] at hrec
      simp [except_bind_err] at hrec
    | ok out =>
      rw [hfd, except_bind_ok] at hrec
      simp only [Except.ok.injEq, Prod.mk.injEq] at hrec
      obtain ⟨hd1, -⟩ := hrec
      have hkvsnone : kvs.lookup rf.name = none := by
        apply lookup_eq_none_of_not_mem
        rw [hkeys]
        intro hk
        simp only [List.mem_map] at hk
        obtain ⟨f, hf, hfn⟩ := hk
        have hfw := List.mem_of_mem_filter hf
        have hany : wfs.any (fun g => g.name == rf.name) = true :=
          List.any_eq_true.2 ⟨f, hfw, by simp [hfn]⟩
        rw [hnotW] at hany
        cases hany
      obtain ⟨v, hv, hlook⟩ :=
        fillDefaults_binds (.srecord wn wfs) (.srecord rn rfs) rf hnotW hdef
          rfs kvs out hmem hid hkvsnone hfd
      exact ⟨v, out, hv, hd1.symm, hlook⟩
  · intro hnodef hok
    obtain ⟨fname, hfd⟩ :=
      fillDefaults_missing (.srecord wn wfs) (.srecord rn rfs) rf hnotW hnodef
        rfs kvs hmem hok
    refine ⟨fname, ?_⟩
    rw [read_record, if_neg (by simp [hbeq])]
    simp only [Schema.fields, hphase1, except_bind_ok]
    rw [if_pos hguard, hfd, except_bind_err]

/-- Witness for `read_record_defaults`: writer record `{a : int}`, reader
record `{a : int, b : string = "x"}`, wire bytes `[0x0E]` (the int 7); the
decoded record binds `b` to the reified default `"x"`. -/
theorem read_record_defaults_witness :
    ∃ v out, read_default_value Schema.sstring (.str "x") = .ok v ∧
      Datum.dict [("a", Datum.int 7), ("b", Datum.string "x")] = Datum.dict out ∧
      out.lookup "b" = some v := by
  have happ := (read_record_defaults "r" "r"
      [Field.mk "a" .sint false .null]
      [Field.mk "a" .sint false .null, Field.mk "b" .sstring true (.str "x")]
      (Field.mk "b" .sstring true (.str "x")) 8 [0x0E] [] [("a", .int 7)]
      (by simp [Schema.beq, Schema.beqFields, Json.beqJ])
      (by simp [readFieldsRes, fieldLookup, Field.name, Field.type, read_data,
        Schema.beq, readDispatch, read_long, readLongGo, unZigZag_eq,
        and127_eq_mod, and128_eq, except_bind_ok])
      (by simp)
      (by rfl)
      (by simp [Field.name])
      (by simp [Field.name])).1 rfl
      (Datum.dict [("a", .int 7), ("b", .string "x")]) []
      (by simp [read_record, Schema.beq, Schema.beqFields, Json.beqJ, readFieldsRes,
        fieldLookup, Field.name, Field.type, Field.has_default, Field.default,
        read_data, readDispatch, match_schema, matchSchemaUncached, sameTypeMatch,
        Schema.typeName, read_long, readLongGo, unZigZag_eq, and127_eq_mod,
        and128_eq, fieldsDict, fillDefaults, Schema.fields, read_default_value,
        jsonToDatum, except_bind_ok])
  simpa [Field.type, Field.default, Field.name] using happ

/- ### Round-trip building blocks -/

theorem long_rt (n : Int) (rest : Bytes)
    (h1 : -(2 ^ 63) ≤ n) (h2 : n ≤ 2 ^ 63 - 1) :
    read_long (write_long n ++ rest) = .ok (n, rest) := by
  rw [write_long, read_long_varint, unZigZag_zigZag n h1 h2]

theorem pyRead_exact (bs rest : Bytes) :
    pyRead (Int.ofNat bs.length) (bs ++ rest) = (bs, rest) := by
  rw [pyRead, if_neg (by simp only [Int.ofNat_eq_coe]; omega)]
  have ht : (Int.ofNat bs.length).toNat = bs.length := rfl
  rw [ht, List.take_left, List.drop_left]

theorem readBytesPrim_write_bytes (bs rest : Bytes)
    (h : (bs.length : Int) ≤ LONG_MAX_VALUE) :
    readBytesPrim (write_bytes bs ++ rest) = .ok (bs, rest) := by
  rw [LONG_MAX_VALUE] at h
  rw [write_bytes, readBytesPrim, List.append_assoc,
    long_rt (Int.ofNat bs.length) (bs ++ rest)
      (by simp only [Int.ofNat_eq_coe]; omega)
      (by simp only [Int.ofNat_eq_coe] at h ⊢; omega),
    except_bind_ok]
  dsimp only
  rw [pyRead_exact]

theorem and_or_shift8 (n : Nat) : (n &&& 0xFF) ||| ((n >>> 8) <<< 8) = n := by
  apply Nat.eq_of_testBit_eq
  intro i
  simp only [Nat.testBit_or, Nat.testBit_and, Nat.testBit_shiftLeft,
    Nat.testBit_shiftRight]
  have hFF : (0xFF : Nat) = 2 ^ 8 - 1 := by norm_num
  rw [hFF, Nat.testBit_two_pow_sub_one]
  by_cases hi : i < 8
  · have h2 : ¬ (8 ≤ i) := by omega
    simp [hi, h2]
  · have h2 : 8 ≤ i := by omega
    have h3 : 8 + (i - 8) = i := by omega
    simp [hi, h2, h3]

theorem bytesLE_cons (w bits : Nat) :
    bytesLE (w + 1) bits = (bits &&& 0xFF) :: bytesLE w (bits >>> 8) := by
  rw [bytesLE, bytesLE, List.range_succ_eq_map]
  simp only [List.map_cons, List.map_map]
  congr 1
  apply List.map_congr_left
  intro a _
  simp only [Function.comp_apply]
  rw [← Nat.shiftRight_add]
  have h : 8 * a.succ = 8 + 8 * a := by omega
  rw [h]

theorem bytesLE_length (w bits : Nat) : (bytesLE w bits).length = w := by
  simp [bytesLE]

theorem assembleLE_bytesLE : ∀ (w bits : Nat), bits < 2 ^ (8 * w) →
    assembleLE (bytesLE w bits) = bits := by
  intro w
  induction w with
  | zero =>
    intro bits h
    norm_num at h
    simp [h, bytesLE, assembleLE]
  | succ w ih =>
    intro bits h
    rw [bytesLE_cons, assembleLE, ih (bits >>> 8) (by
      rw [Nat.shiftRight_eq_div_pow]
      rw [Nat.div_lt_iff_lt_mul (by norm_num)]
      calc bits < 2 ^ (8 * (w + 1)) := h
        _ = 2 ^ (8 * w) * 2 ^ 8 := by rw [show 8 * (w + 1) = 8 * w + 8 by ring, pow_add])]
    exact and_or_shift8 bits

theorem utf8DecodeChar_prepend (c : Char) (rest : Bytes) :
    utf8Decode (utf8EncodeChar c.toNat ++ rest) =
      (utf8Decode rest).map (fun cs => c :: cs) := by
  have hv : c.toNat < 0xD800 ∨ (0xDFFF < c.toNat ∧ c.toNat < 0x110000) := c.valid
  have hofn : Char.ofNat c.toNat = c := Char.ofNat_toNat c
  rw [utf8EncodeChar]
  by_cases h1 : c.toNat < 0x80
  · rw [if_pos h1, List.singleton_append, utf8Decode, if_pos h1, hofn]
  · rw [if_neg h1]
    by_cases h2 : c.toNat < 0x800
    · rw [if_pos h2]
      have e0 : ¬ (0xC0 + c.toNat / 0x40 < 0x80) := by omega
      have e1 : ¬ (0xC0 + c.toNat / 0x40 < 0xC2) := by omega
      have e2 : 0xC0 + c.toNat / 0x40 < 0xE0 := by omega
      have e3 : 0x80 ≤ 0x80 + c.toNat % 0x40 ∧ 0x80 + c.toNat % 0x40 < 0xC0 := by
        omega
      have e4 : (0xC0 + c.toNat / 0x40 - 0xC0) * 0x40 + (0x80 + c.toNat % 0x40 - 0x80)
          = c.toNat := by omega
      have e5 : 0x80 ≤ c.toNat := by omega
      have e6 : ¬ (0xD800 ≤ c.toNat ∧ c.toNat < 0xE000) := by omega
      have e7 : c.toNat < 0x110000 := by omega
      simp only [List.cons_append, List.nil_append, utf8Decode, utf8DecodeCont,
        e0, e1, e2, e3, e4, e5, e6, e7, if_false, if_true, and_true, true_and,
        and_self, not_false_eq_true, List.append_eq, List.nil_append, hofn]
    · rw [if_neg h2]
      by_cases h3 : c.toNat < 0x10000
      · rw [if_pos h3]
        have e0 : ¬ (0xE0 + c.toNat / 0x1000 < 0x80) := by omega
        have e1 : ¬ (0xE0 + c.toNat / 0x1000 < 0xC2) := by omega
        have e2 : ¬ (0xE0 + c.toNat / 0x1000 < 0xE0) := by omega
        have e2b : 0xE0 + c.toNat / 0x1000 < 0xF0 := by omega
        have e3 : 0x80 ≤ 0x80 + c.toNat / 0x40 % 0x40 ∧
            0x80 + c.toNat / 0x40 % 0x40 < 0xC0 := by omega
        have e3b : 0x80 ≤ 0x80 + c.toNat % 0x40 ∧ 0x80 + c.toNat % 0x40 < 0xC0 := by
          omega
        have e4 : ((0xE0 + c.toNat / 0x1000 - 0xE0) * 0x40 +
            (0x80 + c.toNat / 0x40 % 0x40 - 0x80)) * 0x40 +
            (0x80 + c.toNat % 0x40 - 0x80) = c.toNat := by omega
        have e5 : 0x800 ≤ c.toNat := by omega
        have e6 : ¬ (0xD800 ≤ c.toNat ∧ c.toNat < 0xE000) := by omega
        have e7 : c.toNat < 0x110000 := by omega
        simp only [List.cons_append, List.nil_append, utf8Decode, utf8DecodeCont,
          e0, e1, e2, e2b, e3, e3b, e4, e5, e6, e7, if_false, if_true, and_true,
          true_and, and_self, not_false_eq_true, List.append_eq, List.nil_append,
          Nat.zero_add, hofn]
      · rw [if_neg h3]
        have hub : c.toNat < 0x110000 := by omega
        have e0 : ¬ (0xF0 + c.toNat / 0x40000 < 0x80) := by omega
        have e1 : ¬ (0xF0 + c.toNat / 0x40000 < 0xC2) := by omega
        have e2 : ¬ (0xF0 + c.toNat / 0x40000 < 0xE0) := by omega
        have e3 : ¬ (0xF0 + c.toNat / 0x40000 < 0xF0) := by omega
        have e4 : 0xF0 + c.toNat / 0x40000 < 0xF5 := by omega
        have e5 : 0x80 ≤ 0x80 + c.toNat / 0x1000 % 0x40 ∧
            0x80 + c.toNat / 0x1000 % 0x40 < 0xC0 := by omega
        have e5b : 0x80 ≤ 0x80 + c.toNat / 0x40 % 0x40 ∧
            0x80 + c.toNat / 0x40 % 0x40 < 0xC0 := by omega
        have e5c : 0x80 ≤ 0x80 + c.toNat % 0x40 ∧ 0x80 + c.toNat % 0x40 < 0xC0 := by
          omega
        have e6 : (((0xF0 + c.toNat / 0x40000 - 0xF0) * 0x40 +
            (0x80 + c.toNat / 0x1000 % 0x40 - 0x80)) * 0x40 +
            (0x80 + c.toNat / 0x40 % 0x40 - 0x80)) * 0x40 +
            (0x80 + c.toNat % 0x40 - 0x80) = c.toNat := by omega
        have e7 : 0x10000 ≤ c.toNat := by omega
        have e8 : ¬ (0xD800 ≤ c.toNat ∧ c.toNat < 0xE000) := by omega
        simp only [List.cons_append, List.nil_append, utf8Decode, utf8DecodeCont,
          e0, e1, e2, e3, e4, e5, e5b, e5c, e6, e7, e8, hub, if_false, if_true,
          and_true, true_and, and_self, not_false_eq_true, List.append_eq,
          List.nil_append, Nat.zero_add, hofn]

theorem utf8Decode_append_encode (cs : List Char) (rest : Bytes) :
    utf8Decode (utf8Encode cs ++ rest) =
      (utf8Decode rest).map (fun ds => cs ++ ds) := by
  induction cs with
  | nil =>
    rw [utf8Encode, List.nil_append]
    cases h : utf8Decode rest <;> simp [h]
  | cons c cs ih =>
    rw [utf8Encode, List.append_assoc, utf8DecodeChar_prepend, ih]
    cases h : utf8Decode rest <;> simp [h]

theorem utf8_rt (cs : List Char) : utf8Decode (utf8Encode cs) = .some cs := by
  have h := utf8Decode_append_encode cs []
  rw [List.append_nil] at h
  rw [h]
  simp [utf8Decode]

theorem readUtf8Prim_write_utf8 (s : String) (rest : Bytes)
    (h : ((utf8Encode s.data).length : Int) ≤ LONG_MAX_VALUE) :
    readUtf8Prim (write_utf8 s ++ rest) = .ok (s, rest) := by
  rw [readUtf8Prim, write_utf8, readBytesPrim_write_bytes _ _ h, except_bind_ok]
  dsimp only
  rw [utf8_rt]

theorem listIndex_spec : ∀ (syms : List String) (s : String) (i : Nat),
    listIndex syms s = .some i →
    i < syms.length ∧ syms[i]? = some s ∧ syms.contains s = true := by
  intro syms
  induction syms with
  | nil => intro s i h; rw [listIndex] at h; cases h
  | cons y ys ih =>
    intro s i h
    rw [listIndex] at h
    by_cases hy : (y == s) = true
    · rw [if_pos hy] at h
      cases h
      refine ⟨by simp, ?_, ?_⟩
      · simp [eq_of_beq hy]
      · simp [List.contains_cons, eq_of_beq hy]
    · rw [if_neg hy] at h
      cases hrec : listIndex ys s with
      | none => rw [hrec] at h; cases h
      | some j =>
        rw [hrec] at h
        simp only [Option.map_some'] at h
        obtain ⟨h1, h2, h3⟩ := ih s j hrec
        cases h
        refine ⟨by simp [List.length_cons]; omega, ?_, ?_⟩
        · simp [h2]
        · simp [List.contains_cons, List.mem_of_elem_eq_true h3]

theorem dictGet_append (pre kvs : List (String × Datum)) (k : String)
    (h : ∀ kv ∈ pre, kv.1 ≠ k) : dictGet (pre ++ kvs) k = dictGet kvs k := by
  induction pre with
  | nil => simp
  | cons e rest ih =>
    obtain ⟨k2, v2⟩ := e
    rw [List.cons_append, dictGet]
    have hne : ¬ (k2 == k) = true := by
      simp only [beq_iff_eq]
      exact h (k2, v2) (by simp)
    rw [if_neg hne]
    exact ih (fun kv hkv => h kv (List.mem_cons_of_mem _ hkv))

theorem dictUpdate_append (acc : List (String × Datum)) (k : String) (v : Datum)
    (h : ∀ kv ∈ acc, kv.1 ≠ k) : dictUpdate acc k v = acc ++ [(k, v)] := by
  induction acc with
  | nil => rfl
  | cons e rest ih =>
    obtain ⟨k2, v2⟩ := e
    rw [dictUpdate]
    have hne : ¬ (k2 == k) = true := by
      simp only [beq_iff_eq]
      exact h (k2, v2) (by simp)
    rw [if_neg hne, ih (fun kv hkv => h kv (List.mem_cons_of_mem _ hkv))]
    rfl

theorem not_mem_of_contains_false {k : String} {ks : List String}
    (h : ks.contains k = false) : k ∉ ks := by
  intro hmem
  have h2 : ks.contains k = true := List.elem_eq_true_of_mem hmem
  rw [h2] at h
  cases h

theorem distinctKeys_cons {k : String} {ks : List String}
    (h : distinctKeys (k :: ks) = true) : k ∉ ks ∧ distinctKeys ks = true := by
  rw [distinctKeys, Bool.and_eq_true] at h
  refine ⟨?_, h.2⟩
  have hb : ks.contains k = false := by simpa using h.1
  exact not_mem_of_contains_false hb

theorem canonicalItems_all : ∀ (s : Schema) (xs : List Datum),
    canonicalItems s xs = true → ∀ x ∈ xs, canonical s x = true := by
  intro s xs
  induction xs with
  | nil => intro _ x hx; cases hx
  | cons d ds ih =>
    intro h x hx
    rw [canonicalItems, Bool.and_eq_true] at h
    rcases List.mem_cons.1 hx with rfl | hx2
    · exact h.1
    · exact ih h.2 x hx2

theorem canonicalEntries_all : ∀ (s : Schema) (kvs : List (String × Datum)),
    canonicalEntries s kvs = true → ∀ kv ∈ kvs,
      ((utf8Encode kv.1.data).length : Int) ≤ LONG_MAX_VALUE ∧
        canonical s kv.2 = true := by
  intro s kvs
  induction kvs with
  | nil => intro _ kv hkv; cases hkv
  | cons e rest ih =>
    intro h kv hkv
    obtain ⟨k, v⟩ := e
    rw [canonicalEntries, Bool.and_eq_true, Bool.and_eq_true] at h
    rcases List.mem_cons.1 hkv with rfl | hkv2
    · exact ⟨of_decide_eq_true h.1.1, h.1.2⟩
    · exact ih h.2 kv hkv2

theorem canonicalFields_align : ∀ (fs : List Field) (kvs : List (String × Datum)),
    canonicalFields fs kvs = true →
    List.Forall₂ (fun f kv => kv.1 = f.name ∧ canonical f.type kv.2 = true) fs kvs := by
  intro fs
  induction fs with
  | nil =>
    intro kvs h
    rw [canonicalFields.eq_def] at h
    dsimp only at h
    rw [List.isEmpty_iff] at h
    subst h
    exact List.Forall₂.nil
  | cons f fs ih =>
    intro kvs h
    obtain ⟨n, t, hd, dv⟩ := f
    cases kvs with
    | nil =>
      rw [canonicalFields.eq_def] at h
      dsimp only at h
      cases h
    | cons kv kvs2 =>
      obtain ⟨k, v⟩ := kv
      rw [canonicalFields.eq_def] at h
      dsimp only at h
      rw [Bool.and_eq_true, Bool.and_eq_true] at h
      refine List.Forall₂.cons ⟨?_, ?_⟩ (ih kvs2 h.2)
      · exact eq_of_beq h.1.1
      · exact h.1.2

theorem firstMatchIdx_split : ∀ (ss : List Schema) (b : Schema) (m : Nat),
    firstMatchIdx ss b = .some m →
    ∃ pre r suf, ss = pre ++ r :: suf ∧ pre.length = m ∧
      (∀ x ∈ pre, match_schema b x = false) ∧ match_schema b r = true := by
  intro ss
  induction ss with
  | nil => intro b m h; rw [firstMatchIdx] at h; cases h
  | cons r rs ih =>
    intro b m h
    rw [firstMatchIdx] at h
    by_cases hm : match_schema b r = true
    · rw [if_pos hm] at h
      cases h
      exact ⟨[], r, rs, rfl, rfl, fun x hx => absurd hx (List.not_mem_nil x), hm⟩
    · rw [if_neg hm] at h
      cases hrec : firstMatchIdx rs b with
      | none => rw [hrec] at h; cases h
      | some m2 =>
        rw [hrec] at h
        simp only [Option.map_some'] at h
        cases h
        obtain ⟨pre, r2, suf, hsplit, hlen, hpre, hr⟩ := ih b m2 hrec
        refine ⟨r :: pre, r2, suf, by rw [hsplit, List.cons_append], by simp [hlen], ?_, hr⟩
        intro x hx
        rcases List.mem_cons.1 hx with rfl | hx2
        · simpa using hm
        · exact hpre x hx2

theorem canonicalUnionGo_spec (full : List Schema) (d : Datum) :
    ∀ (rem : List Schema) (i : Nat), canonicalUnionGo full i rem d = true →
    ∃ pre b suf, rem = pre ++ b :: suf ∧
      (∀ x ∈ pre, validate x d = false) ∧
      validate b d = true ∧ canonical b d = true ∧ isUnionTag b = false ∧
      firstMatchIdx full b = .some (i + pre.length) ∧
      ((i + pre.length : Int) ≤ LONG_MAX_VALUE) := by
  intro rem
  induction rem with
  | nil => intro i h; rw [canonicalUnionGo] at h; cases h
  | cons s rest ih =>
    intro i h
    rw [canonicalUnionGo] at h
    by_cases hv : validate s d = true
    · rw [if_pos hv] at h
      rw [Bool.and_eq_true, Bool.and_eq_true, Bool.and_eq_true] at h
      refine ⟨[], s, rest, rfl, fun x hx => absurd hx (List.not_mem_nil x), hv,
        h.1.1.1, ?_, ?_, ?_⟩
      · simpa using h.1.1.2
      · simpa using eq_of_beq h.1.2
      · have hb := of_decide_eq_true h.2
        simp only [List.length_nil]
        push_cast at hb ⊢
        omega
    · rw [if_neg hv] at h
      obtain ⟨pre, b, suf, hsplit, hpre, hvb, hcb, hub, hfm, hbound⟩ := ih (i + 1) h
      refine ⟨s :: pre, b, suf, by rw [hsplit, List.cons_append], ?_, hvb, hcb, hub,
        ?_, ?_⟩
      · intro x hx
        rcases List.mem_cons.1 hx with rfl | hx2
        · simpa using hv
        · exact hpre x hx2
      · have harith : i + (s :: pre).length = i + 1 + pre.length := by
          simp [List.length_cons]
          omega
        rw [harith]
        exact hfm
      · simp only [List.length_cons]
        push_cast at hbound ⊢
        omega

theorem match_schema_refl (s : Schema) : match_schema s s = true := by
  rw [match_schema, schema_beq_refl]
  rfl

theorem beq_ne_of_unionTag (U b : Schema) (hU : isUnionTag U = true)
    (hb : isUnionTag b = false) : Schema.beq U b = false := by
  cases hbeq : Schema.beq U b
  · rfl
  · have heq := (schema_beq_iff U b).1 hbeq
    rw [heq] at hU
    rw [hU] at hb
    cases hb

theorem match_branch_union (b U : Schema) (hb : isUnionTag b = false)
    (hU : isUnionTag U = true) : match_schema b U = true := by
  have hne : (b.typeName == U.typeName) = false := by
    cases h : b.typeName == U.typeName
    · rfl
    · rw [isUnionTag, eq_of_beq h] at hb
      rw [isUnionTag] at hU
      rw [hb] at hU
      cases hU
  rw [isUnionTag] at hU
  rw [match_schema]
  have hu2 : matchSchemaUncached b U = true := by
    rw [matchSchemaUncached]
    rcases (Bool.or_eq_true _ _).mp hU with h | h
    · simp [hne, h]
    · simp [hne, h]
  rw [hu2]
  simp

theorem unionTarget_skip : ∀ (pre : List Schema) (b U : Schema) (suf : List Schema)
    (input : Bytes) (m : Nat),
    (∀ x ∈ pre, match_schema b x = false) →
    readUnionTargetGo (pre.length + 1 + m) b U (pre ++ b :: suf) input =
      read_data m b b input := by
  intro pre
  induction pre with
  | nil =>
    intro b U suf input m _
    have harith : ([] : List Schema).length + 1 + m = m + 1 := by simp; omega
    rw [harith, List.nil_append, readUnionTargetGo, if_pos (match_schema_refl b)]
  | cons r pre2 ih =>
    intro b U suf input m hpre
    have harith : (r :: pre2).length + 1 + m = (pre2.length + 1 + m) + 1 := by
      simp [List.length_cons]
      omega
    rw [harith, List.cons_append, readUnionTargetGo]
    rw [if_neg (by rw [hpre r (List.mem_cons_self r pre2)]; simp)]
    exact ih b U suf input m (fun x hx => hpre x (List.mem_cons_of_mem _ hx))

theorem read_data_retarget (fuel : Nat) (b U : Schema) (input : Bytes)
    (hb : isUnionTag b = false) (hU : isUnionTag U = true)
    (hbequ : Schema.beq U b = false) :
    read_data (fuel + 1) b U input = readUnionTargetGo fuel b U U.schemas input := by
  rw [read_data, if_neg (by simp [hbequ])]
  rw [if_neg (by simp [match_branch_union b U hb hU])]
  rw [if_pos (by simp [hb, hU])]

theorem write_data_ok (W : Schema) (d : Datum) (enc : Bytes)
    (h : writeDatum W d = .ok enc) : write_data W d = .ok enc := by
  rw [write_data, h]

theorem items_rt (items : Schema) :
    ∀ (xs : List Datum),
      (∀ x ∈ xs, ∃ enc F, write_data items x = .ok enc ∧
        ∀ rest k, read_data (F + k) items items (enc ++ rest) = .ok (x, rest)) →
      ∃ body G, writeItems items xs = .ok body ∧
        ∀ acc rest k, readItemsArr (G + k) xs.length items items (body ++ rest) acc
          = .ok (acc ++ xs, rest) := by
  intro xs
  induction xs with
  | nil =>
    intro _
    refine ⟨[], 1, ?_, ?_⟩
    · rw [writeItems]
    · intro acc rest k
      have h1 : 1 + k = k + 1 := by omega
      rw [h1, List.nil_append, List.length_nil, readItemsArr]
      simp
  | cons x xs ih =>
    intro hall
    obtain ⟨e, F, hw, hr⟩ := hall x (List.mem_cons_self x xs)
    obtain ⟨body, G, hwb, hrb⟩ := ih (fun y hy => hall y (List.mem_cons_of_mem _ hy))
    refine ⟨e ++ body, F + G + 1, ?_, ?_⟩
    · rw [writeItems, hw, except_bind_ok, hwb, except_bind_ok]
    · intro acc rest k
      have h1 : F + G + 1 + k = (F + (G + k)) + 1 := by omega
      rw [h1, List.length_cons, readItemsArr]
      rw [List.append_assoc, hr (body ++ rest) (G + k), except_bind_ok]
      dsimp only
      have h2 : F + (G + k) = G + (F + k) := by omega
      rw [h2, hrb (acc ++ [x]) rest (F + k)]
      simp

theorem entries_rt (values : Schema) :
    ∀ (kvs : List (String × Datum)),
      (∀ kv ∈ kvs, ((utf8Encode (kv : String × Datum).1.data).length : Int) ≤ LONG_MAX_VALUE ∧
        ∃ enc F, write_data values kv.2 = .ok enc ∧
          ∀ rest k, read_data (F + k) values values (enc ++ rest) = .ok (kv.2, rest)) →
      distinctKeys (kvs.map Prod.fst) = true →
      ∃ body G, writeMapItems values kvs = .ok body ∧
        ∀ acc rest k,
          (∀ kv ∈ kvs, ∀ av ∈ acc, (av : String × Datum).1 ≠ (kv : String × Datum).1) →
          readItemsMap (G + k) kvs.length values values (body ++ rest) acc
            = .ok (acc ++ kvs, rest) := by
  intro kvs
  induction kvs with
  | nil =>
    intro _ _
    refine ⟨[], 1, ?_, ?_⟩
    · rw [writeMapItems]
    · intro acc rest k _
      have h1 : 1 + k = k + 1 := by omega
      rw [h1, List.nil_append, List.length_nil, readItemsMap]
      simp
  | cons e kvs ih =>
    intro hall hdk
    obtain ⟨k0, v0⟩ := e
    obtain ⟨hklen, enc, F, hw, hr⟩ := hall (k0, v0) (List.mem_cons_self _ _)
    rw [List.map_cons] at hdk
    have hdk2 : distinctKeys (kvs.map Prod.fst) = true := (distinctKeys_cons hdk).2
    have hknotin : k0 ∉ kvs.map Prod.fst := (distinctKeys_cons hdk).1
    obtain ⟨body, G, hwb, hrb⟩ :=
      ih (fun y hy => hall y (List.mem_cons_of_mem _ hy)) hdk2
    refine ⟨write_utf8 k0 ++ enc ++ body, F + G + 1, ?_, ?_⟩
    · rw [writeMapItems, hw, except_bind_ok, hwb, except_bind_ok]
    · intro acc rest k hfresh
      have h1 : F + G + 1 + k = (F + (G + k)) + 1 := by omega
      rw [h1, List.length_cons, readItemsMap]
      rw [List.append_assoc, List.append_assoc,
        readUtf8Prim_write_utf8 k0 _ hklen, except_bind_ok]
      dsimp only
      rw [hr (body ++ rest) (G + k), except_bind_ok]
      dsimp only
      rw [dictUpdate_append acc k0 v0
        (fun av hav => hfresh (k0, v0) (List.mem_cons_self _ _) av hav)]
      have hfresh2 : ∀ kv ∈ kvs, ∀ av ∈ acc ++ [(k0, v0)],
          (av : String × Datum).1 ≠ (kv : String × Datum).1 := by
        intro kv hkv av hav
        rcases List.mem_append.1 hav with hav1 | hav2
        · exact hfresh kv (List.mem_cons_of_mem _ hkv) av hav1
        · have hav3 : av = (k0, v0) := List.mem_singleton.1 hav2
          subst hav3
          intro heq
          apply hknotin
          dsimp only at heq
          rw [heq]
          exact List.mem_map.2 ⟨kv, hkv, rfl⟩
      have h2 : F + (G + k) = G + (F + k) := by omega
      rw [h2, hrb (acc ++ [(k0, v0)]) rest (F + k) hfresh2]
      simp

theorem fields_rt : ∀ (fs : List Field) (kvs full : List (String × Datum)),
    List.Forall₂ (fun f kv => (kv : String × Datum).1 = (f : Field).name ∧
      dictGet full (f : Field).name = (kv : String × Datum).2 ∧
      ∃ enc F, write_data (f : Field).type (kv : String × Datum).2 = .ok enc ∧
        ∀ rest k, read_data (F + k) (f : Field).type (f : Field).type (enc ++ rest)
          = .ok ((kv : String × Datum).2, rest)) fs kvs →
    ∃ body G, writeRecordFields fs full = .ok body ∧
      ∀ acc rest k, readFieldsSame (G + k) fs (body ++ rest) acc
        = .ok (acc ++ kvs, rest) := by
  intro fs
  induction fs with
  | nil =>
    intro kvs full hfa
    cases hfa
    refine ⟨[], 1, ?_, ?_⟩
    · rw [writeRecordFields]
    · intro acc rest k
      have h1 : 1 + k = k + 1 := by omega
      rw [h1, List.nil_append, readFieldsSame]
      simp
  | cons f fs ih =>
    intro kvs full hfa
    obtain ⟨n, t, hd, dv⟩ := f
    cases hfa with
    | cons hpair hrest =>
      rename_i kv kvs2
      obtain ⟨kk, vv⟩ := kv
      obtain ⟨hk1, hget, enc, F, hw, hr⟩ := hpair
      simp only [Field.name, Field.type] at hk1 hget hw hr
      subst hk1
      obtain ⟨body, G, hwb, hrb⟩ := ih kvs2 full hrest
      refine ⟨enc ++ body, F + G + 1, ?_, ?_⟩
      · rw [writeRecordFields, hget, hw, except_bind_ok, hwb, except_bind_ok]
      · intro acc rest k
        have h1 : F + G + 1 + k = (F + (G + k)) + 1 := by omega
        rw [h1, readFieldsSame]
        simp only [Field.type, Field.name]
        rw [List.append_assoc, hr (body ++ rest) (G + k), except_bind_ok]
        dsimp only
        have h2 : F + (G + k) = G + (F + k) := by omega
        rw [h2, hrb (acc ++ [(kk, vv)]) rest (F + k)]
        simp

theorem record_fields_build : ∀ (fs : List Field) (kvs pre : List (String × Datum)),
    List.Forall₂ (fun f kv => (kv : String × Datum).1 = (f : Field).name ∧
      canonical (f : Field).type (kv : String × Datum).2 = true) fs kvs →
    distinctKeys (fs.map Field.name) = true →
    (∀ f ∈ fs, ∀ av ∈ pre, (av : String × Datum).1 ≠ (f : Field).name) →
    (∀ f ∈ fs, ∀ v : Datum, canonical (f : Field).type v = true →
      ∃ enc F, write_data (f : Field).type v = .ok enc ∧
        ∀ rest k, read_data (F + k) (f : Field).type (f : Field).type (enc ++ rest)
          = .ok (v, rest)) →
    List.Forall₂ (fun f kv => (kv : String × Datum).1 = (f : Field).name ∧
      dictGet (pre ++ kvs) (f : Field).name = (kv : String × Datum).2 ∧
      ∃ enc F, write_data (f : Field).type (kv : String × Datum).2 = .ok enc ∧
        ∀ rest k, read_data (F + k) (f : Field).type (f : Field).type (enc ++ rest)
          = .ok ((kv : String × Datum).2, rest)) fs kvs := by
  intro fs
  induction fs with
  | nil =>
    intro kvs pre hfa _ _ _
    cases hfa
    exact List.Forall₂.nil
  | cons f fs ih =>
    intro kvs pre hfa hdk hfreshPre hIH
    cases hfa with
    | cons hpair hrest =>
      rename_i kv kvs2
      obtain ⟨kk, vv⟩ := kv
      have hk1 : kk = (f : Field).name := hpair.1
      have hcv : canonical (f : Field).type vv = true := hpair.2
      rw [List.map_cons] at hdk
      have hdk2 := (distinctKeys_cons hdk).2
      have hnotin := (distinctKeys_cons hdk).1
      have hassoc : pre ++ (kk, vv) :: kvs2 = (pre ++ [(kk, vv)]) ++ kvs2 := by simp
      rw [hassoc]
      refine List.Forall₂.cons ⟨hk1, ?_, ?_⟩ ?_
      · rw [← hassoc,
          dictGet_append pre _ _
            (fun av hav => hfreshPre f (List.mem_cons_self f fs) av hav),
          dictGet, if_pos (by simp [hk1])]
      · exact hIH f (List.mem_cons_self f fs) vv hcv
      · apply ih kvs2 (pre ++ [(kk, vv)]) hrest hdk2
        · intro g hg av hav
          rcases List.mem_append.1 hav with hav1 | hav2
          · exact hfreshPre g (List.mem_cons_of_mem _ hg) av hav1
          · have hav3 : av = (kk, vv) := List.mem_singleton.1 hav2
            subst hav3
            dsimp only
            rw [hk1]
            intro heq
            apply hnotin
            rw [heq]
            exact List.mem_map.2 ⟨g, hg, rfl⟩
        · intro g hg v hv
          exact hIH g (List.mem_cons_of_mem _ hg) v hv

theorem record_roundtrip_case (S : Schema) (fs : List Field)
    (kvs : List (String × Datum))
    (hfields : S.fields = fs)
    (hwd : writeDatum S (.dict kvs) = writeRecordFields fs kvs)
    (hdisp : ∀ fuel input, readDispatch (fuel + 1) S S input = read_record fuel S S input)
    (hdk : distinctKeys (fs.map Field.name) = true)
    (hcf : canonicalFields fs kvs = true)
    (hIH : ∀ f ∈ fs, ∀ v : Datum, canonical (f : Field).type v = true →
      ∃ enc F, write_data (f : Field).type v = .ok enc ∧
        ∀ rest k, read_data (F + k) (f : Field).type (f : Field).type (enc ++ rest)
          = .ok (v, rest)) :
    ∃ enc F, write_data S (.dict kvs) = .ok enc ∧
      ∀ rest k, read_data (F + k) S S (enc ++ rest) = .ok (.dict kvs, rest) := by
  have align := canonicalFields_align fs kvs hcf
  have hfa := record_fields_build fs kvs [] align hdk
    (fun f _ av hav => absurd hav (List.not_mem_nil av)) hIH
  simp only [List.nil_append] at hfa
  obtain ⟨body, G, hwb, hrb⟩ := fields_rt fs kvs kvs hfa
  refine ⟨body, G + 3, write_data_ok _ _ _ (by rw [hwd]; exact hwb), ?_⟩
  intro rest k
  have h1 : G + 3 + k = ((G + k + 1) + 1) + 1 := by omega
  rw [h1, read_data, if_pos (schema_beq_refl S)]
  have h2 : G + k + 1 + 1 = (G + k + 1) + 1 := rfl
  rw [h2, hdisp (G + k + 1), read_record, if_pos (schema_beq_refl S), hfields]
  have h3 : G + k + 1 = (G + k) + 1 := rfl
  rw [hrb [] rest k, except_bind_ok]
  dsimp only
  simp

theorem union_roundtrip_case (U : Schema) (ss : List Schema) (d : Datum)
    (hschemas : U.schemas = ss)
    (hwd : writeDatum U d = writeUnionGo U 0 ss d)
    (hdisp : ∀ fuel input, readDispatch (fuel + 1) U U input = read_union fuel U U input)
    (hutag : isUnionTag U = true)
    (hc : canonicalUnionGo ss 0 ss d = true)
    (hIH : ∀ b ∈ ss, canonical b d = true →
      ∃ enc F, write_data b d = .ok enc ∧
        ∀ rest k, read_data (F + k) b b (enc ++ rest) = .ok (d, rest)) :
    ∃ enc F, write_data U d = .ok enc ∧
      ∀ rest k, read_data (F + k) U U (enc ++ rest) = .ok (d, rest) := by
  obtain ⟨pre, b, suf, hsplit, hpreval, hvb, hcb, hbtag, hfm, hbound⟩ :=
    canonicalUnionGo_spec ss d ss 0 hc
  simp only [Nat.zero_add] at hfm
  have hbound2 : (pre.length : Int) ≤ 2 ^ 63 - 1 := by
    rw [LONG_MAX_VALUE] at hbound
    push_cast at hbound
    omega
  obtain ⟨encB, FB, hwB, hrB⟩ := hIH b
    (by rw [hsplit]; exact List.mem_append_right _ (List.mem_cons_self b suf)) hcb
  obtain ⟨pre2, r2, suf2, hsplit2, hlen2, hpre2, hr2⟩ :=
    firstMatchIdx_split ss b pre.length hfm
  have heq : pre ++ b :: suf = pre2 ++ r2 :: suf2 := hsplit.symm.trans hsplit2
  obtain ⟨hpre_eq, hcons_eq⟩ := List.append_inj heq hlen2.symm
  injection hcons_eq with hb_eq hsuf_eq
  subst hpre_eq
  subst hb_eq
  have hwU : write_data U d = .ok (write_long (Int.ofNat pre.length) ++ encB) := by
    apply write_data_ok
    rw [hwd, hsplit, writeUnionGo_first U d b suf encB hvb hwB pre 0 hpreval]
    simp
  refine ⟨write_long (Int.ofNat pre.length) ++ encB, FB + pre.length + 5, hwU, ?_⟩
  intro rest k
  have h1 : FB + pre.length + 5 + k
      = ((((pre.length + 1 + (FB + k)) + 1) + 1) + 1) + 1 := by omega
  rw [h1, read_data, if_pos (schema_beq_refl U), hdisp, read_union]
  rw [List.append_assoc,
    long_rt (Int.ofNat pre.length) (encB ++ rest)
      (by simp only [Int.ofNat_eq_coe]; omega)
      (by simp only [Int.ofNat_eq_coe]; omega),
    except_bind_ok]
  dsimp only
  rw [hschemas, hsplit]
  have hidx : pyListIdx (pre ++ b :: suf) (Int.ofNat pre.length) = some b := by
    rw [pyListIdx, if_pos (by simp only [Int.ofNat_eq_coe]; omega)]
    have ht : (Int.ofNat pre.length).toNat = pre.length := rfl
    rw [ht, List.getElem?_append_right (le_refl pre.length)]
    simp
  rw [hidx]
  dsimp only
  rw [read_data_retarget (pre.length + 1 + (FB + k)) b U _ hbtag hutag
    (beq_ne_of_unionTag U b hutag hbtag)]
  rw [hschemas, hsplit, unionTarget_skip pre b U suf _ (FB + k) hpre2]
  exact hrB rest k

/-- The round-trip engine: by strong induction on the schema size, every
canonical datum is written successfully and read back exactly, with any
trailing input untouched, given enough fuel (any `F + k`). -/
theorem roundtrip_aux : ∀ (n : Nat) (S : Schema), sizeOf S ≤ n → ∀ d : Datum,
    canonical S d = true →
    ∃ enc F, write_data S d = .ok enc ∧
      ∀ rest k, read_data (F + k) S S (enc ++ rest) = .ok (d, rest) := by
  intro n
  induction n using Nat.strong_induction_on with
  | _ n IH =>
    intro S hS d hc
    cases S with
    | snull =>
      cases d
      case none =>
        refine ⟨[], 2, write_data_ok _ _ _ (by rw [writeDatum]), ?_⟩
        intro rest k
        have h1 : 2 + k = (k + 1) + 1 := by omega
        rw [h1, read_data, if_pos (schema_beq_refl _), readDispatch]
        simp
      all_goals (rw [canonical.eq_def] at hc; dsimp only at hc; cases hc)
    | sboolean =>
      cases d
      case bool b =>
        cases b
        · refine ⟨[0], 2, write_data_ok _ _ _ (by rw [writeDatum, write_boolean]; rfl), ?_⟩
          intro rest k
          have h1 : 2 + k = (k + 1) + 1 := by omega
          rw [h1, List.singleton_append, read_data, if_pos (schema_beq_refl _),
            readDispatch]
          simp
        · refine ⟨[1], 2, write_data_ok _ _ _ (by rw [writeDatum, write_boolean]; rfl), ?_⟩
          intro rest k
          have h1 : 2 + k = (k + 1) + 1 := by omega
          rw [h1, List.singleton_append, read_data, if_pos (schema_beq_refl _),
            readDispatch]
          simp
      all_goals (rw [canonical.eq_def] at hc; dsimp only at hc; cases hc)
    | sint =>
      cases d
      case int v =>
        rw [canonical.eq_def] at hc
        dsimp only at hc
        have hrange := of_decide_eq_true hc
        rw [INT_MIN_VALUE, INT_MAX_VALUE] at hrange
        refine ⟨write_long v, 2, write_data_ok _ _ _ (by rw [writeDatum]; rfl), ?_⟩
        intro rest k
        have h1 : 2 + k = (k + 1) + 1 := by omega
        rw [h1, read_data, if_pos (schema_beq_refl _), readDispatch,
          long_rt v rest (by omega) (by omega), except_bind_ok]
      all_goals (rw [canonical.eq_def] at hc; dsimp only at hc; cases hc)
    | slong =>
      cases d
      case int v =>
        rw [canonical.eq_def] at hc
        dsimp only at hc
        have hrange := of_decide_eq_true hc
        rw [LONG_MIN_VALUE, LONG_MAX_VALUE] at hrange
        refine ⟨write_long v, 2, write_data_ok _ _ _ (by rw [writeDatum]; rfl), ?_⟩
        intro rest k
        have h1 : 2 + k = (k + 1) + 1 := by omega
        rw [h1, read_data, if_pos (schema_beq_refl _), readDispatch,
          long_rt v rest (by omega) (by omega), except_bind_ok]
      all_goals (rw [canonical.eq_def] at hc; dsimp only at hc; cases hc)
    | sfloat =>
      cases d
      case float bits =>
        rw [canonical.eq_def] at hc
        dsimp only at hc
        cases hf : float64to32 bits with
        | error e => rw [hf] at hc; cases hc
        | ok b32 =>
          rw [hf] at hc
          dsimp only at hc
          rw [Bool.and_eq_true] at hc
          have h32 : b32 < 2 ^ 32 := of_decide_eq_true hc.1
          have hwide : widen32to64 b32 = bits := eq_of_beq hc.2
          have hw : writeDatum .sfloat (.float bits) = .ok (bytesLE 4 b32) := by
            rw [writeDatum]
            simp only [floatOfDatum, except_bind_ok, hf]
          refine ⟨bytesLE 4 b32, 2, write_data_ok _ _ _ hw, ?_⟩
          intro rest k
          have h1 : 2 + k = (k + 1) + 1 := by omega
          rw [h1, read_data, if_pos (schema_beq_refl _), readDispatch]
          have hp : pyRead 4 (bytesLE 4 b32 ++ rest) = (bytesLE 4 b32, rest) := by
            have h := pyRead_exact (bytesLE 4 b32) rest
            rw [bytesLE_length] at h
            exact h
          rw [hp]
          dsimp only
          rw [assembleLE_bytesLE 4 b32 (by omega), hwide]
      all_goals (rw [canonical.eq_def] at hc; dsimp only at hc; cases hc)
    | sdouble =>
      cases d
      case float bits =>
        rw [canonical.eq_def] at hc
        dsimp only at hc
        have h64 : bits < 2 ^ 64 := of_decide_eq_true hc
        refine ⟨bytesLE 8 bits, 2, write_data_ok _ _ _ (by rw [writeDatum]; rfl), ?_⟩
        intro rest k
        have h1 : 2 + k = (k + 1) + 1 := by omega
        rw [h1, read_data, if_pos (schema_beq_refl _), readDispatch]
        have hp : pyRead 8 (bytesLE 8 bits ++ rest) = (bytesLE 8 bits, rest) := by
          have h := pyRead_exact (bytesLE 8 bits) rest
          rw [bytesLE_length] at h
          exact h
        rw [hp]
        dsimp only
        rw [assembleLE_bytesLE 8 bits (by omega)]
      all_goals (rw [canonical.eq_def] at hc; dsimp only at hc; cases hc)
    | sbytes =>
      cases d
      case bytes bs =>
        rw [canonical.eq_def] at hc
        dsimp only at hc
        have hlen := of_decide_eq_true hc
        refine ⟨write_bytes bs, 2, write_data_ok _ _ _ (by rw [writeDatum]), ?_⟩
        intro rest k
        have h1 : 2 + k = (k + 1) + 1 := by omega
        rw [h1, read_data, if_pos (schema_beq_refl _), readDispatch,
          readBytesPrim_write_bytes bs rest hlen, except_bind_ok]
      all_goals (rw [canonical.eq_def] at hc; dsimp only at hc; cases hc)
    | sstring =>
      cases d
      case string s =>
        rw [canonical.eq_def] at hc
        dsimp only at hc
        have hlen := of_decide_eq_true hc
        refine ⟨write_utf8 s, 2, write_data_ok _ _ _ (by rw [writeDatum]), ?_⟩
        intro rest k
        have h1 : 2 + k = (k + 1) + 1 := by omega
        rw [h1, read_data, if_pos (schema_beq_refl _), readDispatch,
          readUtf8Prim_write_utf8 s rest hlen, except_bind_ok]
      all_goals (rw [canonical.eq_def] at hc; dsimp only at hc; cases hc)
    | sfixed nm size =>
      cases d
      case bytes bs =>
        rw [canonical.eq_def] at hc
        dsimp only at hc
        have hsz : bs.length = size := eq_of_beq hc
        subst hsz
        refine ⟨bs, 2, write_data_ok _ _ _ (by rw [writeDatum]), ?_⟩
        intro rest k
        have h1 : 2 + k = (k + 1) + 1 := by omega
        rw [h1, read_data, if_pos (schema_beq_refl _), readDispatch, read_fixed]
        have hp : pyRead (Int.ofNat (Schema.sfixed nm bs.length).size) (bs ++ rest)
            = (bs, rest) := by
          rw [Schema.size]
          exact pyRead_exact bs rest
        rw [hp]
      all_goals (rw [canonical.eq_def] at hc; dsimp only at hc; cases hc)
    | senum nm syms =>
      cases d
      case string s =>
        rw [canonical.eq_def] at hc
        dsimp only at hc
        cases hli : listIndex syms s with
        | none => rw [hli] at hc; cases hc
        | some i =>
          rw [hli] at hc
          dsimp only at hc
          have hibound : (i : Int) ≤ LONG_MAX_VALUE := of_decide_eq_true hc
          rw [LONG_MAX_VALUE] at hibound
          obtain ⟨hilt, hget, hcont⟩ := listIndex_spec syms s i hli
          have hw : writeDatum (.senum nm syms) (.string s)
              = .ok (write_long (Int.ofNat i)) := by
            rw [writeDatum, hli]
            rfl
          refine ⟨write_long (Int.ofNat i), 2, write_data_ok _ _ _ hw, ?_⟩
          intro rest k
          have h1 : 2 + k = (k + 1) + 1 := by omega
          rw [h1, read_data, if_pos (schema_beq_refl _), readDispatch, read_enum,
            read_int]
          rw [long_rt (Int.ofNat i) rest (by simp only [Int.ofNat_eq_coe]; omega)
            (by simp only [Int.ofNat_eq_coe]; omega), except_bind_ok]
          dsimp only
          simp only [Schema.symbols]
          rw [if_neg (by simp only [Int.ofNat_eq_coe]; omega)]
          have hpy : pyListIdx syms (Int.ofNat i) = some s := by
            rw [pyListIdx, if_pos (by simp only [Int.ofNat_eq_coe]; omega)]
            have ht : (Int.ofNat i).toNat = i := rfl
            rw [ht, hget]
          rw [hpy]
          dsimp only
          rw [if_pos hcont]
      all_goals (rw [canonical.eq_def] at hc; dsimp only at hc; cases hc)
    | sarray items =>
      cases d
      case list xs =>
        rw [canonical.eq_def] at hc
        dsimp only at hc
        rw [Bool.and_eq_true] at hc
        have hlen := of_decide_eq_true hc.1
        have hitems : ∀ x ∈ xs, ∃ enc F, write_data items x = .ok enc ∧
            ∀ rest k, read_data (F + k) items items (enc ++ rest) = .ok (x, rest) := by
          intro x hx
          have hcx := canonicalItems_all items xs hc.2 x hx
          have hsz : sizeOf items < n := by
            have h3 := Schema.sarray.sizeOf_spec items
            omega
          exact IH (sizeOf items) hsz items le_rfl x hcx
        obtain ⟨body, G, hwb, hrb⟩ := items_rt items xs hitems
        by_cases hemp : xs = []
        · subst hemp
          refine ⟨write_long 0, 3, write_data_ok _ _ _ ?_, ?_⟩
          · rw [writeDatum, write_array, if_neg (by simp)]
          · intro rest k
            have h1 : 3 + k = ((k + 1) + 1) + 1 := by omega
            rw [h1, read_data, if_pos (schema_beq_refl _), readDispatch]
            simp only [Schema.items]
            rw [readBlocksArr, long_rt 0 rest (by norm_num) (by norm_num),
              except_bind_ok]
            dsimp only
            rw [if_pos (show ((0 : Int) == 0) = true from rfl)]
        · have hlen0 : 0 < xs.length := List.length_pos.2 hemp
          refine ⟨write_long (Int.ofNat xs.length) ++ body ++ write_long 0, G + 4,
            write_data_ok _ _ _ ?_, ?_⟩
          · rw [writeDatum, write_array, if_pos (by omega), hwb, except_bind_ok]
          · intro rest k
            have h1 : G + 4 + k = (((G + (k + 1)) + 1) + 1) + 1 := by omega
            rw [h1, read_data, if_pos (schema_beq_refl _), readDispatch]
            simp only [Schema.items]
            rw [readBlocksArr, List.append_assoc, List.append_assoc,
              long_rt (Int.ofNat xs.length) _ (by simp only [Int.ofNat_eq_coe]; omega)
                (by rw [LONG_MAX_VALUE] at hlen
                    simp only [Int.ofNat_eq_coe] at hlen ⊢
                    omega),
              except_bind_ok]
            dsimp only
            rw [if_neg (by simp only [beq_iff_eq, Int.ofNat_eq_coe]; omega)]
            rw [if_neg (by simp only [Int.ofNat_eq_coe]; omega)]
            have ht : (Int.ofNat xs.length).toNat = xs.length := rfl
            rw [ht, hrb [] (write_long 0 ++ rest) (k + 1), except_bind_ok]
            dsimp only
            have h2 : G + (k + 1) = (G + k) + 1 := by omega
            rw [h2, readBlocksArr, long_rt 0 rest (by norm_num) (by norm_num),
              except_bind_ok]
            dsimp only
            rw [if_pos (show ((0 : Int) == 0) = true from rfl)]
            simp
      all_goals (rw [canonical.eq_def] at hc; dsimp only at hc; cases hc)
    | smap values =>
      cases d
      case dict kvs =>
        rw [canonical.eq_def] at hc
        dsimp only at hc
        rw [Bool.and_eq_true, Bool.and_eq_true] at hc
        have hlen := of_decide_eq_true hc.1.1
        have hentries : ∀ kv ∈ kvs,
            ((utf8Encode (kv : String × Datum).1.data).length : Int) ≤ LONG_MAX_VALUE ∧
            ∃ enc F, write_data values (kv : String × Datum).2 = .ok enc ∧
              ∀ rest k, read_data (F + k) values values (enc ++ rest)
                = .ok ((kv : String × Datum).2, rest) := by
          intro kv hkv
          obtain ⟨hklen, hcv⟩ := canonicalEntries_all values kvs hc.2 kv hkv
          refine ⟨hklen, ?_⟩
          have hsz : sizeOf values < n := by
            have h3 := Schema.smap.sizeOf_spec values
            omega
          exact IH (sizeOf values) hsz values le_rfl kv.2 hcv
        obtain ⟨body, G, hwb, hrb⟩ := entries_rt values kvs hentries hc.1.2
        by_cases hemp : kvs = []
        · subst hemp
          refine ⟨write_long 0, 3, write_data_ok _ _ _ ?_, ?_⟩
          · rw [writeDatum, write_map, if_neg (by simp)]
          · intro rest k
            have h1 : 3 + k = ((k + 1) + 1) + 1 := by omega
            rw [h1, read_data, if_pos (schema_beq_refl _), readDispatch]
            simp only [Schema.values]
            rw [readBlocksMap, long_rt 0 rest (by norm_num) (by norm_num),
              except_bind_ok]
            dsimp only
            rw [if_pos (show ((0 : Int) == 0) = true from rfl)]
        · have hlen0 : 0 < kvs.length := List.length_pos.2 hemp
          refine ⟨write_long (Int.ofNat kvs.length) ++ body ++ write_long 0, G + 4,
            write_data_ok _ _ _ ?_, ?_⟩
          · rw [writeDatum, write_map, if_pos (by omega), hwb, except_bind_ok]
          · intro rest k
            have h1 : G + 4 + k = (((G + (k + 1)) + 1) + 1) + 1 := by omega
            rw [h1, read_data, if_pos (schema_beq_refl _), readDispatch]
            simp only [Schema.values]
            rw [readBlocksMap, List.append_assoc, List.append_assoc,
              long_rt (Int.ofNat kvs.length) _ (by simp only [Int.ofNat_eq_coe]; omega)
                (by rw [LONG_MAX_VALUE] at hlen
                    simp only [Int.ofNat_eq_coe] at hlen ⊢
                    omega),
              except_bind_ok]
            dsimp only
            rw [if_neg (by simp only [beq_iff_eq, Int.ofNat_eq_coe]; omega)]
            rw [if_neg (by simp only [Int.ofNat_eq_coe]; omega)]
            have ht : (Int.ofNat kvs.length).toNat = kvs.length := rfl
            rw [ht, hrb [] (write_long 0 ++ rest) (k + 1)
                (fun kv _ av hav => absurd hav (List.not_mem_nil av)),
              except_bind_ok]
            dsimp only
            have h2 : G + (k + 1) = (G + k) + 1 := by omega
            rw [h2, readBlocksMap, long_rt 0 rest (by norm_num) (by norm_num),
              except_bind_ok]
            dsimp only
            rw [if_pos (show ((0 : Int) == 0) = true from rfl)]
            simp
      all_goals (rw [canonical.eq_def] at hc; dsimp only at hc; cases hc)
    | sunion ss =>
      rw [canonical.eq_def] at hc
      dsimp only at hc
      apply union_roundtrip_case (.sunion ss) ss d rfl (by rw [writeDatum, write_union])
        (fun fuel input => by rw [readDispatch]) rfl hc
      intro b hb hcb
      have hsz : sizeOf b < n := by
        have h2 := List.sizeOf_lt_of_mem hb
        have h3 := Schema.sunion.sizeOf_spec ss
        omega
      exact IH (sizeOf b) hsz b le_rfl d hcb
    | serrorUnion ss =>
      rw [canonical.eq_def] at hc
      dsimp only at hc
      apply union_roundtrip_case (.serrorUnion ss) ss d rfl
        (by rw [writeDatum, write_union])
        (fun fuel input => by rw [readDispatch]) rfl hc
      intro b hb hcb
      have hsz : sizeOf b < n := by
        have h2 := List.sizeOf_lt_of_mem hb
        have h3 := Schema.serrorUnion.sizeOf_spec ss
        omega
      exact IH (sizeOf b) hsz b le_rfl d hcb
    | srecord nm fs =>
      cases d
      case dict kvs =>
        rw [canonical.eq_def] at hc
        dsimp only at hc
        rw [Bool.and_eq_true] at hc
        apply record_roundtrip_case (.srecord nm fs) fs kvs rfl (by rw [writeDatum])
          (fun fuel input => by rw [readDispatch]) hc.1 hc.2
        intro f hf v hv
        obtain ⟨fn, ft, fd, fdv⟩ := f
        simp only [Field.type] at hv ⊢
        have hsz : sizeOf ft < n := by
          have h2 := List.sizeOf_lt_of_mem hf
          have h3 := Field.mk.sizeOf_spec fn ft fd fdv
          have h4 := Schema.srecord.sizeOf_spec nm fs
          omega
        exact IH (sizeOf ft) hsz ft le_rfl v hv
      all_goals (rw [canonical.eq_def] at hc; dsimp only at hc; cases hc)
    | serror nm fs =>
      cases d
      case dict kvs =>
        rw [canonical.eq_def] at hc
        dsimp only at hc
        rw [Bool.and_eq_true] at hc
        apply record_roundtrip_case (.serror nm fs) fs kvs rfl (by rw [writeDatum])
          (fun fuel input => by rw [readDispatch]) hc.1 hc.2
        intro f hf v hv
        obtain ⟨fn, ft, fd, fdv⟩ := f
        simp only [Field.type] at hv ⊢
        have hsz : sizeOf ft < n := by
          have h2 := List.sizeOf_lt_of_mem hf
          have h3 := Field.mk.sizeOf_spec fn ft fd fdv
          have h4 := Schema.serror.sizeOf_spec nm fs
          omega
        exact IH (sizeOf ft) hsz ft le_rfl v hv
      all_goals (rw [canonical.eq_def] at hc; dsimp only at hc; cases hc)
    | srequest fs =>
      cases d
      case dict kvs =>
        rw [canonical.eq_def] at hc
        dsimp only at hc
        rw [Bool.and_eq_true] at hc
        apply record_roundtrip_case (.srequest fs) fs kvs rfl (by rw [writeDatum])
          (fun fuel input => by rw [readDispatch]) hc.1 hc.2
        intro f hf v hv
        obtain ⟨fn, ft, fd, fdv⟩ := f
        simp only [Field.type] at hv ⊢
        have hsz : sizeOf ft < n := by
          have h2 := List.sizeOf_lt_of_mem hf
          have h3 := Field.mk.sizeOf_spec fn ft fd fdv
          have h4 := Schema.srequest.sizeOf_spec fs
          omega
        exact IH (sizeOf ft) hsz ft le_rfl v hv
      all_goals (rw [canonical.eq_def] at hc; dsimp only at hc; cases hc)

/-- **C1** (corrected): the single-schema round-trip holds for canonical
data: for every schema `S` and datum in decoder normal form for `S`
(`canonical S d = true`, which in particular implies `validate S d = true`),
`write_data` succeeds and `read_data(S, S)` on the produced bytes — with any
trailing input appended and any sufficient fuel — returns exactly the same
datum and leaves the trailing input unconsumed.  The claim as stated over
every datum with `validate S datum = true` is refuted by
`roundtrip_not_identity`: `validate` is lossy (record dicts may omit
`null`-able fields, doubles ride `float` schemas, ints ride `double`
schemas), so decoding the encoding need not return the input even modulo
NaN identification and dict entry order. -/
theorem write_read_roundtrip (S : Schema) (d : Datum)
    (hc : canonical S d = true) :
    ∃ enc F, write_data S d = .ok enc ∧
      ∀ rest k, read_data (F + k) S S (enc ++ rest) = .ok (d, rest) :=
  roundtrip_aux (sizeOf S) S le_rfl d hc

/-- Witness for `write_read_roundtrip`: the record `{"a": int}` with datum
`{"a": 7}` (spec scenario S5's writer side), a canonical datum. -/
theorem write_read_roundtrip_witness :
    canonical (.srecord "r" [.mk "a" .sint false .null])
      (.dict [("a", .int 7)]) = true ∧
    ∃ enc F, write_data (.srecord "r" [.mk "a" .sint false .null])
        (.dict [("a", .int 7)]) = .ok enc ∧
      ∀ rest k, read_data (F + k) (.srecord "r" [.mk "a" .sint false .null])
          (.srecord "r" [.mk "a" .sint false .null]) (enc ++ rest)
        = .ok (.dict [("a", .int 7)], rest) :=
  ⟨by simp [canonical, canonicalFields, distinctKeys, Field.name, Field.type,
      INT_MIN_VALUE, INT_MAX_VALUE],
    write_read_roundtrip (.srecord "r" [.mk "a" .sint false .null])
      (.dict [("a", .int 7)])
      (by simp [canonical, canonicalFields, distinctKeys, Field.name, Field.type,
        INT_MIN_VALUE, INT_MAX_VALUE])⟩

/-- Counterexample to C1 as stated: the record schema `{"f": null}` accepts
the empty dict (`validate` looks fields up with `datum.get`, and `None`
validates against `"null"`), the encoding is empty, but decoding returns
`{"f": None}` — a dict whose entry multiset differs from the input's, so the
two are unequal even modulo dict entry order (and no floats are involved). -/
theorem roundtrip_not_identity :
    validate (.srecord "r" [.mk "f" .snull false .null]) (.dict []) = true ∧
    write_data (.srecord "r" [.mk "f" .snull false .null]) (.dict []) = .ok [] ∧
    read_data 10 (.srecord "r" [.mk "f" .snull false .null])
      (.srecord "r" [.mk "f" .snull false .null]) []
      = .ok (.dict [("f", .none)], []) ∧
    ¬ ([("f", Datum.none)] : List (String × Datum)).Perm [] := by
  refine ⟨?_, ?_, ?_, ?_⟩
  · simp [validate, validateFields, dictGet]
  · simp [write_data, writeDatum, writeRecordFields, dictGet, except_bind_ok]
  · simp [read_data, Schema.beq, Schema.beqFields, Json.beqJ, readDispatch,
      read_record, readFieldsSame, Field.name, Field.type, Schema.fields,
      except_bind_ok]
  · simp

end Avro
